import Mathlib

/-!
Verification development for the memory consistency argument of the zk_evm
proving pipeline, embedded from `evm_arithmetization/src/memory/memory_stark.rs`.

Trace values live in the Goldilocks base field (the `F : RichField` every caller
in this repository instantiates, via `PoseidonGoldilocksConfig`), modelled as
`ZMod glP`; `ZMod.val` models `RichField::to_canonical_u64`.  Machine integers
(`usize` address components, timestamps and lengths) are modelled as `Nat`;
the 256-bit operation values are modelled as `Nat` with limb extraction taking
`% 2 ^ 32` exactly as `low_u32` does.
-/

/-- The Goldilocks prime 2^64 - 2^32 + 1, the order of plonky2's `GoldilocksField`. -/
def glP : Nat := 18446744069414584321

/-- The base field of the memory STARK trace. -/
abbrev Gl := ZMod glP

instance : NeZero glP := ⟨by decide⟩

/-- `MemoryAddress` (from `witness/memory.rs`).  Modelled from the spec §3:
Address = (context, segment, virtual offset), each a machine integer. -/
structure MemoryAddress where
  context : Nat
  segment : Nat
  virt : Nat
deriving DecidableEq

/-- `MemoryOpKind` (from `witness/memory.rs`).  Modelled from the spec §3:
kind ∈ \x7bRead, Write\x7d. -/
inductive MemoryOpKind where
  | Read
  | Write
deriving DecidableEq

/-- `MemoryOp` (from `witness/memory.rs`).  Modelled from the spec §3:
Operation = address, 256-bit value, timestamp, kind, active flag (named
`filter` throughout `memory_stark.rs`). -/
structure MemoryOp where
  filter : Bool
  timestamp : Nat
  address : MemoryAddress
  kind : MemoryOpKind
  value : Nat
deriving DecidableEq

/-- Sort keys: (context, segment, virtual offset, timestamp). -/
abbrev SortKey := Nat × Nat × Nat × Nat

/-- Modelled from the spec: `MemoryOp::sorting_key` lives in `witness/memory.rs`,
which is not among the provided sources.  Spec §3: "Sort key = (context,
segment, virtual offset, timestamp)". -/
def MemoryOp.sorting_key (op : MemoryOp) : SortKey :=
  (op.address.context, op.address.segment, op.address.virt, op.timestamp)

/-- Lexicographic (non-strict) order on sort keys, as Rust's derived tuple `Ord`. -/
def keyLE (a b : SortKey) : Prop :=
  a.1 < b.1 ∨ (a.1 = b.1 ∧ (a.2.1 < b.2.1 ∨ (a.2.1 = b.2.1 ∧
    (a.2.2.1 < b.2.2.1 ∨ (a.2.2.1 = b.2.2.1 ∧ a.2.2.2 ≤ b.2.2.2)))))

/-- Strict lexicographic order on sort keys. -/
def keyLT (a b : SortKey) : Prop :=
  a.1 < b.1 ∨ (a.1 = b.1 ∧ (a.2.1 < b.2.1 ∨ (a.2.1 = b.2.1 ∧
    (a.2.2.1 < b.2.2.1 ∨ (a.2.2.1 = b.2.2.1 ∧ a.2.2.2 < b.2.2.2)))))

instance : DecidableRel keyLE := fun a b => by
  unfold keyLE; infer_instance

instance : DecidableRel keyLT := fun a b => by
  unfold keyLT; infer_instance

theorem keyLE_total (a b : SortKey) : keyLE a b ∨ keyLE b a := by
  unfold keyLE; omega

theorem keyLE_trans {a b c : SortKey} (h1 : keyLE a b) (h2 : keyLE b c) : keyLE a c := by
  unfold keyLE at *; omega

theorem keyLE_antisymm {a b : SortKey} (h1 : keyLE a b) (h2 : keyLE b a) : a = b := by
  obtain ⟨a1, a2, a3, a4⟩ := a
  obtain ⟨b1, b2, b3, b4⟩ := b
  unfold keyLE at *
  simp only [Prod.mk.injEq]
  simp only [Prod.fst, Prod.snd] at h1 h2
  omega

theorem keyLT_trans {a b c : SortKey} (h1 : keyLT a b) (h2 : keyLT b c) : keyLT a c := by
  unfold keyLT at *; omega

theorem keyLT_iff_le_ne {a b : SortKey} : keyLT a b ↔ keyLE a b ∧ a ≠ b := by
  obtain ⟨a1, a2, a3, a4⟩ := a
  obtain ⟨b1, b2, b3, b4⟩ := b
  unfold keyLT keyLE
  simp only [ne_eq, Prod.mk.injEq]
  omega

theorem keyLE_of_lt {a b : SortKey} (h : keyLT a b) : keyLE a b := by
  unfold keyLT at h; unfold keyLE; omega

theorem keyLT_of_le_of_lt {a b c : SortKey} (h1 : keyLE a b) (h2 : keyLT b c) : keyLT a c := by
  unfold keyLE at h1; unfold keyLT at *; omega

theorem keyLT_of_lt_of_le {a b c : SortKey} (h1 : keyLT a b) (h2 : keyLE b c) : keyLT a c := by
  unfold keyLE at h2; unfold keyLT at *; omega

instance : IsAntisymm SortKey keyLE := ⟨fun _ _ => keyLE_antisymm⟩

instance : IsTrans SortKey keyLE := ⟨fun _ _ _ => keyLE_trans⟩

instance : IsTotal SortKey keyLE := ⟨keyLE_total⟩

instance : IsTrans SortKey keyLT := ⟨fun _ _ _ => keyLT_trans⟩

/-- Order on operations through their sort keys (`sort_by_key(MemoryOp::sorting_key)`). -/
def opLE (a b : MemoryOp) : Prop := keyLE a.sorting_key b.sorting_key

/-- Strict order on operations through their sort keys. -/
def opLT (a b : MemoryOp) : Prop := keyLT a.sorting_key b.sorting_key

instance : DecidableRel opLE := fun a b => by
  unfold opLE; infer_instance

instance : DecidableRel opLT := fun a b => by
  unfold opLT; infer_instance

instance : IsTotal MemoryOp opLE := ⟨fun a b => keyLE_total _ _⟩

instance : IsTrans MemoryOp opLE := ⟨fun _ _ _ => keyLE_trans⟩

instance : IsTrans MemoryOp opLT := ⟨fun _ _ _ => keyLT_trans⟩

/-- `memory_ops.sort_by_key(MemoryOp::sorting_key)`: a sorted permutation of the
input.  (Rust's sort is stable; none of the verified statements depend on the
relative order of key-tied elements, so a structurally recursive insertion sort
is used.) -/
def sortOps (l : List MemoryOp) : List MemoryOp := List.insertionSort opLE l

theorem sortOps_perm (l : List MemoryOp) : (sortOps l).Perm l := List.perm_insertionSort opLE l

theorem sortOps_sorted (l : List MemoryOp) : List.Sorted opLE (sortOps l) :=
  List.sorted_insertionSort opLE l

/-- `usize::next_power_of_two`: the smallest power of two that is ≥ `n`
(returning 1 for `n = 0`).  Implemented by structural doubling (with enough
fuel) so that it evaluates by kernel reduction. -/
def nextPow2Go : Nat → Nat → Nat → Nat
  | _, p, 0 => p
  | n, p, fuel + 1 => if n ≤ p then p else nextPow2Go n (2 * p) fuel

/-- `n.next_power_of_two()`. -/
def nextPow2 (n : Nat) : Nat := nextPow2Go n 1 n

theorem nextPow2Go_spec (n : Nat) : ∀ fuel j : Nat, n ≤ 2 ^ (j + fuel) →
    ∃ k, j ≤ k ∧ nextPow2Go n (2 ^ j) fuel = 2 ^ k ∧ n ≤ 2 ^ k ∧
      ∀ m, j ≤ m → n ≤ 2 ^ m → k ≤ m := by
  intro fuel
  induction fuel with
  | zero =>
    intro j h
    exact ⟨j, le_refl j, rfl, by simpa using h, fun m hm _ => hm⟩
  | succ fuel ih =>
    intro j h
    by_cases hnp : n ≤ 2 ^ j
    · exact ⟨j, le_refl j, by simp [nextPow2Go, hnp], hnp, fun m hm _ => hm⟩
    · have h' : n ≤ 2 ^ (j + 1 + fuel) := by
        have : j + 1 + fuel = j + (fuel + 1) := by omega
        rw [this]; exact h
      obtain ⟨k, hk1, hk2, hk3, hk4⟩ := ih (j + 1) h'
      refine ⟨k, by omega, ?_, hk3, ?_⟩
      · have : (2 : Nat) * 2 ^ j = 2 ^ (j + 1) := by ring
        simp only [nextPow2Go, hnp, if_false, this]
        exact hk2
      · intro m hm hnm
        have hmj : j ≠ m := by
          rintro rfl; exact hnp hnm
        exact hk4 m (by omega) hnm

theorem nextPow2_spec (n : Nat) :
    ∃ k, nextPow2 n = 2 ^ k ∧ n ≤ 2 ^ k ∧ ∀ m, n ≤ 2 ^ m → k ≤ m := by
  have h : n ≤ 2 ^ (0 + n) := by
    simpa using Nat.le_of_lt (Nat.lt_two_pow n)
  obtain ⟨k, _, hk2, hk3, hk4⟩ := nextPow2Go_spec n n 0 h
  refine ⟨k, ?_, hk3, fun m hm => hk4 m (Nat.zero_le m) hm⟩
  simpa [nextPow2] using hk2

theorem le_nextPow2 (n : Nat) : n ≤ nextPow2 n := by
  obtain ⟨k, h1, h2, _⟩ := nextPow2_spec n
  omega

theorem nextPow2_pos (n : Nat) : 0 < nextPow2 n := by
  obtain ⟨k, h1, _, _⟩ := nextPow2_spec n
  rw [h1]; exact Nat.pos_pow_of_pos k (by omega)

theorem nextPow2_le_of_le_pow (n k : Nat) (h : n ≤ 2 ^ k) : nextPow2 n ≤ 2 ^ k := by
  obtain ⟨j, h1, _, h3⟩ := nextPow2_spec n
  rw [h1]
  exact Nat.pow_le_pow_right (by omega) (h3 k h)

theorem nextPow2_mono {a b : Nat} (h : a ≤ b) : nextPow2 a ≤ nextPow2 b := by
  obtain ⟨k, hk1, hk2, _⟩ := nextPow2_spec b
  rw [hk1]
  exact nextPow2_le_of_le_pow a k (le_trans h hk2)

/-- `MemoryOp::new_dummy_read` (from `witness/memory.rs`, not among the provided
sources).  Modelled from the spec §4.1: "All inserted operations are reads with
`active = false`", carrying the given address, timestamp and value. -/
def MemoryOp.new_dummy_read (address : MemoryAddress) (timestamp : Nat) (value : Nat) : MemoryOp :=
  { filter := false, timestamp := timestamp, address := address, kind := .Read, value := value }

namespace MemoryStark

/-- The inner loop of `MemoryStark::fill_gaps` for a window whose context or
segment changes (`memory_stark.rs` lines 330-337), with explicit fuel so that
the definition is structurally recursive (and hence evaluates by kernel
reduction): while the running `next` operation's virtual offset exceeds
`max_rc`, push a dummy read at the same context/segment with the offset lowered
by `max_rc`, at timestamp `curr.timestamp + 1` (`curr` is not reassigned in
this branch). -/
def ctxSegFillGo (maxRc currTs : Nat) : Nat → MemoryOp → List MemoryOp
  | 0, _ => []
  | fuel + 1, next =>
    if maxRc < next.address.virt then
      let d := MemoryOp.new_dummy_read { next.address with virt := next.address.virt - maxRc }
        (currTs + 1) 0
      d :: ctxSegFillGo maxRc currTs fuel d
    else
      []

/-- `ctxSegFillGo` with fuel `next.address.virt`, which suffices whenever
`max_rc ≥ 1` (`ctxSegFillGo_fuel_free`): each iteration lowers the offset by
`max_rc`.  The source loops forever when `max_rc = 0`; that requires a
one-operation list, which produces no windows, so the loop is never entered
with `max_rc = 0`. -/
def ctxSegFill (maxRc : Nat) (currTs : Nat) (next : MemoryOp) : List MemoryOp :=
  ctxSegFillGo maxRc currTs next.address.virt next

/-- The inner loop of `MemoryStark::fill_gaps` for a window whose virtual offset
changes within one context/segment (`memory_stark.rs` lines 338-346), with
explicit fuel: while the offset gap `next.virt - curr.virt - 1` exceeds
`max_rc`, push a dummy read stepping the running `curr` offset up by
`max_rc + 1`, at `curr.timestamp + 1`. -/
def virtFillGo (maxRc : Nat) : Nat → MemoryOp → MemoryOp → List MemoryOp
  | 0, _, _ => []
  | fuel + 1, curr, next =>
    if maxRc < next.address.virt - curr.address.virt - 1 then
      let d := MemoryOp.new_dummy_read { curr.address with virt := curr.address.virt + maxRc + 1 }
        (curr.timestamp + 1) 0
      d :: virtFillGo maxRc fuel d next
    else
      []

/-- `virtFillGo` with fuel `next.address.virt - curr.address.virt`, which always
suffices (`virtFillGo_fuel_free`): each iteration raises `curr`'s offset by
`max_rc + 1 ≥ 1`. -/
def virtFill (maxRc : Nat) (curr next : MemoryOp) : List MemoryOp :=
  virtFillGo maxRc (next.address.virt - curr.address.virt) curr next

/-- The inner loop of `MemoryStark::fill_gaps` for a window at one address
(`memory_stark.rs` lines 347-353), with explicit fuel: while the timestamp gap
exceeds `max_rc`, push a dummy read at the same address with timestamp advanced
by `max_rc`, carrying the running `curr` value forward. -/
def tsFillGo (maxRc : Nat) : Nat → MemoryOp → Nat → List MemoryOp
  | 0, _, _ => []
  | fuel + 1, curr, nextTs =>
    if maxRc < nextTs - curr.timestamp then
      let d := MemoryOp.new_dummy_read curr.address (curr.timestamp + maxRc) curr.value
      d :: tsFillGo maxRc fuel d nextTs
    else
      []

/-- `tsFillGo` with fuel `nextTs - curr.timestamp`, which suffices whenever
`max_rc ≥ 1` (`tsFillGo_fuel_free`).  As with `ctxSegFill`, the `max_rc = 0`
case diverges in the source and is unreachable. -/
def tsFill (maxRc : Nat) (curr : MemoryOp) (nextTs : Nat) : List MemoryOp :=
  tsFillGo maxRc (nextTs - curr.timestamp) curr nextTs

/-- One window of `MemoryStark::fill_gaps` (`memory_stark.rs` lines 317-355):
the operations pushed for the adjacent sorted pair `(curr, next)`. -/
def fillWindow (maxRc : Nat) (curr next : MemoryOp) : List MemoryOp :=
  if curr.address.context ≠ next.address.context ∨ curr.address.segment ≠ next.address.segment then
    ctxSegFill maxRc curr.timestamp next
  else if curr.address.virt ≠ next.address.virt then
    virtFill maxRc curr next
  else
    tsFill maxRc curr next.timestamp

/-- `MemoryStark::fill_gaps` (`memory_stark.rs` lines 296-356).  The caller
sorts before calling; the subtractions in the window loops match the `usize`
arithmetic of the source on sorted input.  A dummy read at address (0,0,0),
timestamp 1, value 0 is prepended when the first (minimal) operation's virtual
offset is nonzero; `max_rc` is the next power of two of the resulting length,
minus one; dummies for each adjacent window of a snapshot of the list are pushed
at the end.  The source indexes `memory_ops[0]` and hence panics on an empty
input; we return `[]` there. -/
def fill_gaps (memoryOps : List MemoryOp) : List MemoryOp :=
  match memoryOps with
  | [] => []
  | first :: _ =>
    let withZero :=
      if first.address.virt ≠ 0 then
        MemoryOp.new_dummy_read ⟨0, 0, 0⟩ 1 0 :: memoryOps
      else
        memoryOps
    let maxRc := nextPow2 withZero.length - 1
    withZero ++ (withZero.zip withZero.tail).flatMap fun p => fillWindow maxRc p.1 p.2

/-- `MemoryStark::pad_memory_ops` (`memory_stark.rs` lines 358-385): repeat a
single inactive read derived from the last operation (virtual offset + 1,
timestamp + 1, value 0) until the length is `(len + 1).next_power_of_two()`.
The source panics (`expect`) on an empty input; we return `[]` there. -/
def pad_memory_ops (memoryOps : List MemoryOp) : List MemoryOp :=
  match memoryOps.getLast? with
  | none => []
  | some lastOp =>
    let paddingAddr : MemoryAddress := { lastOp.address with virt := lastOp.address.virt + 1 }
    let paddingOp : MemoryOp :=
      { filter := false, kind := .Read, address := paddingAddr,
        timestamp := lastOp.timestamp + 1, value := 0 }
    let numOps := memoryOps.length
    let numOpsPadded := nextPow2 (numOps + 1)
    memoryOps ++ List.replicate (numOpsPadded - numOps) paddingOp

end MemoryStark

/-- The columns of one memory-table row (`MemoryColumnsView` from
`memory/columns.rs`, which is not among the provided sources; the fields are
modelled from the spec §3 "Row" and from every column access in
`memory_stark.rs`).  `value_limbs` has `VALUE_LIMBS = 256 / 32 = 8` limbs. -/
structure MemColumns (α : Type) where
  filter : α
  timestamp : α
  timestamp_inv : α
  is_read : α
  addr_context : α
  addr_segment : α
  addr_virtual : α
  value_limbs : Fin 8 → α
  counter : α
  range_check : α
  frequencies : α
  context_first_change : α
  segment_first_change : α
  virtual_first_change : α
  preinitialized_segments : α
  preinitialized_segments_aux : α
  initialize_aux : α
  stale_contexts : α
  stale_context_frequencies : α
  is_stale : α
  maybe_in_mem_after : α
  mem_after_filter : α
  is_pruned : α

/-- `MemoryColumnsView::default()`: all columns zero. -/
def MemColumns.zeros {α : Type} [Zero α] : MemColumns α :=
  { filter := 0, timestamp := 0, timestamp_inv := 0, is_read := 0, addr_context := 0,
    addr_segment := 0, addr_virtual := 0, value_limbs := fun _ => 0, counter := 0,
    range_check := 0, frequencies := 0, context_first_change := 0, segment_first_change := 0,
    virtual_first_change := 0, preinitialized_segments := 0, preinitialized_segments_aux := 0,
    initialize_aux := 0, stale_contexts := 0, stale_context_frequencies := 0, is_stale := 0,
    maybe_in_mem_after := 0, mem_after_filter := 0, is_pruned := 0 }

/-- Apply `f` to every column. -/
def MemColumns.map {α β : Type} (f : α → β) (r : MemColumns α) : MemColumns β :=
  { filter := f r.filter, timestamp := f r.timestamp, timestamp_inv := f r.timestamp_inv,
    is_read := f r.is_read, addr_context := f r.addr_context, addr_segment := f r.addr_segment,
    addr_virtual := f r.addr_virtual, value_limbs := fun j => f (r.value_limbs j),
    counter := f r.counter, range_check := f r.range_check, frequencies := f r.frequencies,
    context_first_change := f r.context_first_change,
    segment_first_change := f r.segment_first_change,
    virtual_first_change := f r.virtual_first_change,
    preinitialized_segments := f r.preinitialized_segments,
    preinitialized_segments_aux := f r.preinitialized_segments_aux,
    initialize_aux := f r.initialize_aux, stale_contexts := f r.stale_contexts,
    stale_context_frequencies := f r.stale_context_frequencies, is_stale := f r.is_stale,
    maybe_in_mem_after := f r.maybe_in_mem_after, mem_after_filter := f r.mem_after_filter,
    is_pruned := f r.is_pruned }

/-- Modelled from the spec: `memory/segments.rs` is not among the provided
sources.  Spec §4.4/§6 name four preinitialized segment identifiers (code, trie
data, and the accounts/storage linked lists), "used only as comparison
constants".  Spec §8 Scenario C fixes the trie-data index at 7; the other three
are modelled as arbitrary pairwise-distinct values. -/
def segCode : Nat := 0

/-- `Segment::TrieData.unscale()` (see `segCode`). -/
def segTrieData : Nat := 7

/-- `Segment::AccountsLinkedList.unscale()` (see `segCode`). -/
def segAccountsLinkedList : Nat := 10

/-- `Segment::StorageLinkedList.unscale()` (see `segCode`). -/
def segStorageLinkedList : Nat := 12

/-- `PREINITIALIZED_SEGMENTS_INDICES` (see `segCode`). -/
def PREINITIALIZED_SEGMENTS_INDICES : List Nat :=
  [segCode, segTrieData, segAccountsLinkedList, segStorageLinkedList]

/-- `MemoryOp::into_row` (`memory_stark.rs` lines 110-129), generic over the
base field exactly as the source is generic over `F: Field`.  `timestamp_inv`
models `timestamp.try_inverse().unwrap_or_default()`: the inverse for
invertible timestamps and 0 otherwise.  Value limbs are
`(value >> (j * 32)).low_u32()`. -/
def MemoryOp.into_row {F : Type} [CommRing F] [Inv F] [DecidableEq F]
    (op : MemoryOp) : MemColumns F :=
  let ts : F := (op.timestamp : F)
  { MemColumns.zeros with
    filter := if op.filter then 1 else 0
    timestamp := ts
    timestamp_inv := if ts = 0 then 0 else ts⁻¹
    is_read := if op.kind = .Read then 1 else 0
    addr_context := (op.address.context : F)
    addr_segment := (op.address.segment : F)
    addr_virtual := (op.address.virt : F)
    value_limbs := fun j => (((op.value >>> (j.val * 32)) % 2 ^ 32 : Nat) : F) }

/-- The body of the loop of `generate_first_change_flags_and_rc`
(`memory_stark.rs` lines 138-200) for row `idx` with its wraparound successor
`next`: the three first-change flags, the `range_check` value (0 for the last
row), the preinitialized-segment gating products and `initialize_aux`. -/
def flagStep (numOps idx : Nat) (row next : MemColumns Gl) : MemColumns Gl :=
  let contextFirstChange : Prop := row.addr_context ≠ next.addr_context
  let segmentFirstChange : Prop := row.addr_segment ≠ next.addr_segment ∧
    ¬(row.addr_context ≠ next.addr_context)
  let virtualFirstChange : Prop := row.addr_virtual ≠ next.addr_virtual ∧
    ¬(row.addr_segment ≠ next.addr_segment ∧ ¬(row.addr_context ≠ next.addr_context)) ∧
    ¬(row.addr_context ≠ next.addr_context)
  let cfc : Gl := if contextFirstChange then 1 else 0
  let sfc : Gl := if segmentFirstChange then 1 else 0
  let vfc : Gl := if virtualFirstChange then 1 else 0
  let rc : Gl :=
    if idx = numOps - 1 then 0
    else if contextFirstChange then next.addr_context - row.addr_context - 1
    else if segmentFirstChange then next.addr_segment - row.addr_segment - 1
    else if virtualFirstChange then next.addr_virtual - row.addr_virtual - 1
    else next.timestamp - row.timestamp
  let paux : Gl := (next.addr_segment - (segAccountsLinkedList : Gl)) *
    (next.addr_segment - (segStorageLinkedList : Gl))
  let pre : Gl := (next.addr_segment - (segCode : Gl)) *
    (next.addr_segment - (segTrieData : Gl)) * paux
  { row with
    context_first_change := cfc
    segment_first_change := sfc
    virtual_first_change := vfc
    range_check := rc
    preinitialized_segments_aux := paux
    preinitialized_segments := pre
    initialize_aux := pre * (cfc + sfc + vfc) * next.is_read }

/-- `generate_first_change_flags_and_rc` (`memory_stark.rs` lines 134-201).
Row `idx` is combined with row `idx + 1` (row 0 after the last row).  The
source `assert!`s that every computed `range_check`'s canonical value is
smaller than the number of rows ("Bug in fill_gaps?"); we model the assertion
failure as `none`. -/
def generate_first_change_flags_and_rc (rows : List (MemColumns Gl)) :
    Option (List (MemColumns Gl)) :=
  let numOps := rows.length
  let out := (List.range numOps).map fun idx =>
    let row := rows.getD idx MemColumns.zeros
    let next := if idx = numOps - 1 then rows.getD 0 MemColumns.zeros
      else rows.getD (idx + 1) MemColumns.zeros
    flagStep numOps idx row next
  if out.all fun r => r.range_check.val < numOps then some out else none

namespace MemoryStark

/-- The operation list underlying the final trace: sort, fill gaps, re-sort,
pad, re-sort (`memory_stark.rs` lines 210-222). -/
def traceOps (memoryOps : List MemoryOp) : List MemoryOp :=
  sortOps (pad_memory_ops (sortOps (fill_gaps (sortOps memoryOps))))

/-- `MemoryStark::generate_trace_row_major` (`memory_stark.rs` lines 206-230):
sort, fill gaps, record the unpadded length, re-sort, pad, re-sort (`traceOps`),
build the rows, then generate the first-change flags and range checks (whose
internal assertion is modelled by the `Option`). -/
def generate_trace_row_major (memoryOps : List MemoryOp) :
    Option (List (MemColumns Gl) × Nat) :=
  let unpaddedLength := (fill_gaps (sortOps memoryOps)).length
  (generate_first_change_flags_and_rc ((traceOps memoryOps).map MemoryOp.into_row)).map
    fun rows => (rows, unpaddedLength)

end MemoryStark

/-! ### Helper lemmas about list indexing -/

theorem rangeMap_getD {β : Type} (f : Nat → β) (n i : Nat) (d : β) (h : i < n) :
    (((List.range n).map f).getD i d) = f i := by
  rw [List.getD_eq_getElem?_getD, List.getElem?_map, List.getElem?_range h]
  rfl

/-! ### Concrete operation lists used by witnesses and counterexamples -/

/-- Two active operations at address (0,0,0): a write of 5 at timestamp 1 and a
read of 7 at timestamp 2 (an inconsistent read). -/
def writeReadOps : List MemoryOp :=
  [⟨true, 1, ⟨0, 0, 0⟩, .Write, 5⟩, ⟨true, 2, ⟨0, 0, 0⟩, .Read, 7⟩]

/-- Two active operations at address (0,0,0): a write of 5 at timestamp 1 and a
read of 5 at timestamp 2 (a consistent log). -/
def writeReadOpsConsistent : List MemoryOp :=
  [⟨true, 1, ⟨0, 0, 0⟩, .Write, 5⟩, ⟨true, 2, ⟨0, 0, 0⟩, .Read, 5⟩]

/-- Spec §8 Scenario A: write value 5 to address (0,6,100) at timestamp 1, read
address (0,6,100) at timestamp 2. -/
def scenarioAOps : List MemoryOp :=
  [⟨true, 1, ⟨0, 6, 100⟩, .Write, 5⟩, ⟨true, 2, ⟨0, 6, 100⟩, .Read, 5⟩]

/-- Two operations whose contexts are 100 apart: the delta 100 - 0 - 1 = 99
exceeds the final trace length 4, so the range-check assertion fires. -/
def contextGapOps : List MemoryOp :=
  [⟨true, 1, ⟨0, 0, 0⟩, .Write, 5⟩, ⟨true, 1, ⟨100, 0, 0⟩, .Read, 0⟩]

/-! ### C7: the padder -/

/-- C7: for every non-empty operation list of length n, `pad_memory_ops`
appends copies of a single dummy operation derived from the last operation — an
inactive read at the last operation's address with virtual offset + 1,
timestamp + 1 and value 0 — until the length is the smallest power of two
strictly greater than n (so at least one padding row exists even when n is
already a power of two). -/
theorem mem_c7_pad_memory_ops (ops : List MemoryOp) (h : ops ≠ []) :
    ∃ lastOp : MemoryOp, ops.getLast? = some lastOp ∧
      MemoryStark.pad_memory_ops ops =
        ops ++ List.replicate (nextPow2 (ops.length + 1) - ops.length)
          { filter := false, timestamp := lastOp.timestamp + 1,
            address := { lastOp.address with virt := lastOp.address.virt + 1 },
            kind := .Read, value := 0 } ∧
      (MemoryStark.pad_memory_ops ops).length = nextPow2 (ops.length + 1) ∧
      (∃ k, nextPow2 (ops.length + 1) = 2 ^ k) ∧
      ops.length < nextPow2 (ops.length + 1) ∧
      ∀ m, ops.length < 2 ^ m → nextPow2 (ops.length + 1) ≤ 2 ^ m := by
  have hl : ops.getLast? = some (ops.getLast h) := List.getLast?_eq_getLast ops h
  have hlen : ops.length < nextPow2 (ops.length + 1) := by
    have := le_nextPow2 (ops.length + 1)
    omega
  refine ⟨ops.getLast h, hl, ?_, ?_, ?_, hlen, ?_⟩
  · unfold MemoryStark.pad_memory_ops
    rw [hl]
  · unfold MemoryStark.pad_memory_ops
    rw [hl]
    simp only [List.length_append, List.length_replicate]
    omega
  · obtain ⟨k, hk, _, _⟩ := nextPow2_spec (ops.length + 1)
    exact ⟨k, hk⟩
  · intro m hm
    exact nextPow2_le_of_le_pow _ m (by omega)

/-- Witness for C7 at the one-element list [inactive read at (0,0,0), ts 1]. -/
theorem mem_c7_pad_memory_ops_witness :
    ∃ lastOp : MemoryOp,
      [MemoryOp.new_dummy_read ⟨0, 0, 0⟩ 1 0].getLast? = some lastOp ∧
      MemoryStark.pad_memory_ops [MemoryOp.new_dummy_read ⟨0, 0, 0⟩ 1 0] =
        [MemoryOp.new_dummy_read ⟨0, 0, 0⟩ 1 0] ++
          List.replicate (nextPow2 ([MemoryOp.new_dummy_read ⟨0, 0, 0⟩ 1 0].length + 1) -
              [MemoryOp.new_dummy_read ⟨0, 0, 0⟩ 1 0].length)
            { filter := false, timestamp := lastOp.timestamp + 1,
              address := { lastOp.address with virt := lastOp.address.virt + 1 },
              kind := .Read, value := 0 } ∧
      (MemoryStark.pad_memory_ops [MemoryOp.new_dummy_read ⟨0, 0, 0⟩ 1 0]).length =
        nextPow2 ([MemoryOp.new_dummy_read ⟨0, 0, 0⟩ 1 0].length + 1) ∧
      (∃ k, nextPow2 ([MemoryOp.new_dummy_read ⟨0, 0, 0⟩ 1 0].length + 1) = 2 ^ k) ∧
      [MemoryOp.new_dummy_read ⟨0, 0, 0⟩ 1 0].length <
        nextPow2 ([MemoryOp.new_dummy_read ⟨0, 0, 0⟩ 1 0].length + 1) ∧
      ∀ m, [MemoryOp.new_dummy_read ⟨0, 0, 0⟩ 1 0].length < 2 ^ m →
        nextPow2 ([MemoryOp.new_dummy_read ⟨0, 0, 0⟩ 1 0].length + 1) ≤ 2 ^ m :=
  mem_c7_pad_memory_ops [MemoryOp.new_dummy_read ⟨0, 0, 0⟩ 1 0] (by simp)

/-! ### C9: the timestamp inverse column -/

/-- C9: for every row produced by `MemoryOp::into_row` (over any base field, as
the source is generic over `F: Field`), `timestamp_inv` is the multiplicative
inverse of the timestamp column when that column is nonzero and 0 when it is 0,
and the row satisfies `timestamp * (timestamp * timestamp_inv - 1) = 0`, the
identity enforced by the timestamp-inverse constraint. -/
theorem mem_c9_timestamp_inv {F : Type} [Field F] [DecidableEq F] (op : MemoryOp) :
    ((op.into_row (F := F)).timestamp = 0 → (op.into_row (F := F)).timestamp_inv = 0) ∧
    ((op.into_row (F := F)).timestamp ≠ 0 →
      (op.into_row (F := F)).timestamp_inv = ((op.into_row (F := F)).timestamp)⁻¹) ∧
    (op.into_row (F := F)).timestamp *
      ((op.into_row (F := F)).timestamp * (op.into_row (F := F)).timestamp_inv - 1) = 0 := by
  unfold MemoryOp.into_row
  dsimp only
  by_cases hts : ((op.timestamp : F)) = 0
  · refine ⟨fun _ => by simp [hts], fun hne => absurd hts hne, ?_⟩
    simp [hts]
  · refine ⟨fun hz => absurd hz hts, fun _ => by simp [hts], ?_⟩
    simp only [hts, if_false]
    rw [mul_inv_cancel₀ hts]
    ring

/-- Witness for C9 over ℚ at a concrete operation with timestamp 3. -/
theorem mem_c9_timestamp_inv_witness :
    (((⟨true, 3, ⟨0, 0, 0⟩, .Read, 5⟩ : MemoryOp).into_row (F := ℚ)).timestamp = 0 →
      ((⟨true, 3, ⟨0, 0, 0⟩, .Read, 5⟩ : MemoryOp).into_row (F := ℚ)).timestamp_inv = 0) ∧
    (((⟨true, 3, ⟨0, 0, 0⟩, .Read, 5⟩ : MemoryOp).into_row (F := ℚ)).timestamp ≠ 0 →
      ((⟨true, 3, ⟨0, 0, 0⟩, .Read, 5⟩ : MemoryOp).into_row (F := ℚ)).timestamp_inv =
        (((⟨true, 3, ⟨0, 0, 0⟩, .Read, 5⟩ : MemoryOp).into_row (F := ℚ)).timestamp)⁻¹) ∧
    ((⟨true, 3, ⟨0, 0, 0⟩, .Read, 5⟩ : MemoryOp).into_row (F := ℚ)).timestamp *
      (((⟨true, 3, ⟨0, 0, 0⟩, .Read, 5⟩ : MemoryOp).into_row (F := ℚ)).timestamp *
        ((⟨true, 3, ⟨0, 0, 0⟩, .Read, 5⟩ : MemoryOp).into_row (F := ℚ)).timestamp_inv - 1) = 0 :=
  mem_c9_timestamp_inv (F := ℚ) ⟨true, 3, ⟨0, 0, 0⟩, .Read, 5⟩

/-! ### C6: the last row's first-change flags -/

/-- If the flag generator accepts, its output is the per-index map with
wraparound successor. -/
theorem flags_some_eq (rows out : List (MemColumns Gl))
    (h : generate_first_change_flags_and_rc rows = some out) :
    out = (List.range rows.length).map fun idx =>
      flagStep rows.length idx (rows.getD idx MemColumns.zeros)
        (if idx = rows.length - 1 then rows.getD 0 MemColumns.zeros
          else rows.getD (idx + 1) MemColumns.zeros) := by
  unfold generate_first_change_flags_and_rc at h
  dsimp only at h
  split at h
  · exact (Option.some.injEq _ _ ▸ h).symm
  · exact absurd h (by simp)

/-- If the flag generator accepts, every produced `range_check` has canonical
value below the number of rows. -/
theorem flags_some_rc_lt (rows out : List (MemColumns Gl))
    (h : generate_first_change_flags_and_rc rows = some out) :
    ∀ r ∈ out, r.range_check.val < rows.length := by
  unfold generate_first_change_flags_and_rc at h
  dsimp only at h
  split at h
  · next hall =>
    obtain rfl : _ = out := Option.some.injEq _ _ ▸ h
    intro r hr
    exact of_decide_eq_true (List.all_eq_true.mp hall r hr)
  · exact absurd h (by simp)

/-- C6 counterexample: for the concrete input `writeReadOps` the generated
trace's last (padding) row has `virtual_first_change = 1`: the wraparound
comparison against row 0 (same context and segment, virtual offset 1 vs 0) is
not overwritten to 0. -/
theorem mem_c6_counterexample :
    ((MemoryStark.generate_trace_row_major writeReadOps).map
      fun pr => ((pr.1.getD 3 MemColumns.zeros).virtual_first_change,
        (pr.1.getD 3 MemColumns.zeros).context_first_change,
        (pr.1.getD 3 MemColumns.zeros).segment_first_change)) = some (1, 0, 0) := by
  decide

/-- C6 (amended): for every non-empty row list accepted by the flag generator,
the last row's first-change flags are computed with wraparound — comparing the
last row's address against the *first* row's — and are not overwritten; only
the last row's `range_check` is set to 0. -/
theorem mem_c6_last_row_flags (rows : List (MemColumns Gl)) (hne : rows ≠ [])
    (h : (generate_first_change_flags_and_rc rows).isSome = true) :
    (((generate_first_change_flags_and_rc rows).getD []).getD (rows.length - 1)
        MemColumns.zeros).context_first_change =
      (if (rows.getD (rows.length - 1) MemColumns.zeros).addr_context ≠
          (rows.getD 0 MemColumns.zeros).addr_context then 1 else 0) ∧
    (((generate_first_change_flags_and_rc rows).getD []).getD (rows.length - 1)
        MemColumns.zeros).segment_first_change =
      (if (rows.getD (rows.length - 1) MemColumns.zeros).addr_segment ≠
            (rows.getD 0 MemColumns.zeros).addr_segment ∧
          ¬((rows.getD (rows.length - 1) MemColumns.zeros).addr_context ≠
            (rows.getD 0 MemColumns.zeros).addr_context) then 1 else 0) ∧
    (((generate_first_change_flags_and_rc rows).getD []).getD (rows.length - 1)
        MemColumns.zeros).virtual_first_change =
      (if (rows.getD (rows.length - 1) MemColumns.zeros).addr_virtual ≠
            (rows.getD 0 MemColumns.zeros).addr_virtual ∧
          ¬((rows.getD (rows.length - 1) MemColumns.zeros).addr_segment ≠
              (rows.getD 0 MemColumns.zeros).addr_segment ∧
            ¬((rows.getD (rows.length - 1) MemColumns.zeros).addr_context ≠
              (rows.getD 0 MemColumns.zeros).addr_context)) ∧
          ¬((rows.getD (rows.length - 1) MemColumns.zeros).addr_context ≠
            (rows.getD 0 MemColumns.zeros).addr_context) then 1 else 0) ∧
    (((generate_first_change_flags_and_rc rows).getD []).getD (rows.length - 1)
        MemColumns.zeros).range_check = 0 := by
  have hn : 0 < rows.length := List.length_pos.mpr hne
  obtain ⟨out, hout⟩ := Option.isSome_iff_exists.mp h
  rw [hout, Option.getD_some, flags_some_eq rows out hout,
    rangeMap_getD _ _ _ _ (by omega), if_pos rfl]
  unfold flagStep
  dsimp only
  refine ⟨rfl, rfl, rfl, ?_⟩
  rw [if_pos rfl]

/-- Witness for C6's amended theorem at a two-row all-zero trace. -/
theorem mem_c6_last_row_flags_witness :
    (((generate_first_change_flags_and_rc [MemColumns.zeros, MemColumns.zeros]).getD []).getD
        (([MemColumns.zeros, MemColumns.zeros] : List (MemColumns Gl)).length - 1)
        MemColumns.zeros).context_first_change =
      (if (([MemColumns.zeros, MemColumns.zeros] : List (MemColumns Gl)).getD
            (([MemColumns.zeros, MemColumns.zeros] : List (MemColumns Gl)).length - 1)
            MemColumns.zeros).addr_context ≠
          (([MemColumns.zeros, MemColumns.zeros] : List (MemColumns Gl)).getD 0
            MemColumns.zeros).addr_context then 1 else 0) ∧
    (((generate_first_change_flags_and_rc [MemColumns.zeros, MemColumns.zeros]).getD []).getD
        (([MemColumns.zeros, MemColumns.zeros] : List (MemColumns Gl)).length - 1)
        MemColumns.zeros).segment_first_change =
      (if (([MemColumns.zeros, MemColumns.zeros] : List (MemColumns Gl)).getD
            (([MemColumns.zeros, MemColumns.zeros] : List (MemColumns Gl)).length - 1)
            MemColumns.zeros).addr_segment ≠
          (([MemColumns.zeros, MemColumns.zeros] : List (MemColumns Gl)).getD 0
            MemColumns.zeros).addr_segment ∧
          ¬((([MemColumns.zeros, MemColumns.zeros] : List (MemColumns Gl)).getD
            (([MemColumns.zeros, MemColumns.zeros] : List (MemColumns Gl)).length - 1)
            MemColumns.zeros).addr_context ≠
          (([MemColumns.zeros, MemColumns.zeros] : List (MemColumns Gl)).getD 0
            MemColumns.zeros).addr_context) then 1 else 0) ∧
    (((generate_first_change_flags_and_rc [MemColumns.zeros, MemColumns.zeros]).getD []).getD
        (([MemColumns.zeros, MemColumns.zeros] : List (MemColumns Gl)).length - 1)
        MemColumns.zeros).virtual_first_change =
      (if (([MemColumns.zeros, MemColumns.zeros] : List (MemColumns Gl)).getD
            (([MemColumns.zeros, MemColumns.zeros] : List (MemColumns Gl)).length - 1)
            MemColumns.zeros).addr_virtual ≠
          (([MemColumns.zeros, MemColumns.zeros] : List (MemColumns Gl)).getD 0
            MemColumns.zeros).addr_virtual ∧
          ¬((([MemColumns.zeros, MemColumns.zeros] : List (MemColumns Gl)).getD
              (([MemColumns.zeros, MemColumns.zeros] : List (MemColumns Gl)).length - 1)
              MemColumns.zeros).addr_segment ≠
            (([MemColumns.zeros, MemColumns.zeros] : List (MemColumns Gl)).getD 0
              MemColumns.zeros).addr_segment ∧
            ¬((([MemColumns.zeros, MemColumns.zeros] : List (MemColumns Gl)).getD
              (([MemColumns.zeros, MemColumns.zeros] : List (MemColumns Gl)).length - 1)
              MemColumns.zeros).addr_context ≠
            (([MemColumns.zeros, MemColumns.zeros] : List (MemColumns Gl)).getD 0
              MemColumns.zeros).addr_context)) ∧
          ¬((([MemColumns.zeros, MemColumns.zeros] : List (MemColumns Gl)).getD
            (([MemColumns.zeros, MemColumns.zeros] : List (MemColumns Gl)).length - 1)
            MemColumns.zeros).addr_context ≠
          (([MemColumns.zeros, MemColumns.zeros] : List (MemColumns Gl)).getD 0
            MemColumns.zeros).addr_context) then 1 else 0) ∧
    (((generate_first_change_flags_and_rc [MemColumns.zeros, MemColumns.zeros]).getD []).getD
        (([MemColumns.zeros, MemColumns.zeros] : List (MemColumns Gl)).length - 1)
        MemColumns.zeros).range_check = 0 :=
  mem_c6_last_row_flags [MemColumns.zeros, MemColumns.zeros] (by simp) (by rfl)

/-! ### C5: Scenario A -/

/-- C5 counterexample: on Scenario A's two operations, `fill_gaps` does *not*
leave the list unchanged: it prepends the (0,0,0) bootstrap read (the first
sorted operation's virtual offset is 100 ≠ 0) and then inserts 33
offset-stepping dummy reads for the (0,0,0) → (0,6,100) window, growing the
2-operation list to 36 operations. -/
theorem mem_c5_counterexample :
    scenarioAOps.length = 2 ∧
    MemoryStark.fill_gaps (sortOps scenarioAOps) ≠ sortOps scenarioAOps ∧
    (MemoryStark.fill_gaps (sortOps scenarioAOps)).length = 36 := by
  decide

/-- C5 (amended): on Scenario A, `fill_gaps` adds dummy operations (the
(0,0,0) bootstrap read plus 33 offset-stepping reads, giving 36 unpadded
rows), and in the resulting 64-row trace the read row — the row with
`is_read = 1`, timestamp 2 and address (0,6,100), at index 35 — carries the
written value 5 in its limbs. -/
theorem mem_c5_scenario_a :
    (MemoryStark.fill_gaps (sortOps scenarioAOps)).length = 36 ∧
    (MemoryStark.generate_trace_row_major scenarioAOps).isSome = true ∧
    (((MemoryStark.generate_trace_row_major scenarioAOps).map Prod.fst).getD []).length = 64 ∧
    ((MemoryStark.generate_trace_row_major scenarioAOps).map Prod.snd).getD 0 = 36 ∧
    ((((MemoryStark.generate_trace_row_major scenarioAOps).map Prod.fst).getD []).getD 35
      MemColumns.zeros).is_read = 1 ∧
    ((((MemoryStark.generate_trace_row_major scenarioAOps).map Prod.fst).getD []).getD 35
      MemColumns.zeros).timestamp = 2 ∧
    ((((MemoryStark.generate_trace_row_major scenarioAOps).map Prod.fst).getD []).getD 35
      MemColumns.zeros).addr_context = 0 ∧
    ((((MemoryStark.generate_trace_row_major scenarioAOps).map Prod.fst).getD []).getD 35
      MemColumns.zeros).addr_segment = 6 ∧
    ((((MemoryStark.generate_trace_row_major scenarioAOps).map Prod.fst).getD []).getD 35
      MemColumns.zeros).addr_virtual = 100 ∧
    ∀ j : Fin 8,
      ((((MemoryStark.generate_trace_row_major scenarioAOps).map Prod.fst).getD []).getD 35
        MemColumns.zeros).value_limbs j = if j.val = 0 then 5 else 0 := by
  decide

/-! ### C8: duplicate stale contexts -/

/-- Remove *consecutive* duplicates, as `Vec::dedup` does. -/
def consecDedup : List Nat → List Nat
  | [] => []
  | [a] => [a]
  | a :: b :: rest =>
    if a = b then consecDedup (b :: rest) else a :: consecDedup (b :: rest)

/-- The `debug_assert!` condition of `MemoryStark::insert_stale_contexts`
(`memory_stark.rs` lines 388-396): sort a copy of the list, remove consecutive
duplicates, and compare lengths. -/
def staleContextsUnique (stale : List Nat) : Bool :=
  (consecDedup (List.insertionSort (fun a b => a ≤ b) stale)).length == stale.length

/-- The write loop of `insert_stale_contexts` (`memory_stark.rs` lines
398-404): for each stale context `ctx`, store `ctx + 1` in that row's
`stale_contexts` slot and set its `is_pruned` flag.  The row indexing
`trace_rows[ctx]` panics when out of bounds, modelled by `none`. -/
def insertStaleLoop : List (MemColumns Gl) → List Nat → Option (List (MemColumns Gl))
  | rows, [] => some rows
  | rows, ctx :: rest =>
    if ctx < rows.length then
      let row := rows.getD ctx MemColumns.zeros
      insertStaleLoop
        (rows.set ctx { row with stale_contexts := (ctx : Gl) + 1, is_pruned := 1 }) rest
    else
      none

/-- `MemoryStark::insert_stale_contexts` (`memory_stark.rs` lines 387-405).
The uniqueness check is a `debug_assert!`, active only in builds with debug
assertions; the `debugAssertions` parameter models the build configuration,
and a failing active assertion is modelled by `none`. -/
def insert_stale_contexts (debugAssertions : Bool) (rows : List (MemColumns Gl))
    (stale : List Nat) : Option (List (MemColumns Gl)) :=
  if debugAssertions ∧ staleContextsUnique stale = false then none
  else insertStaleLoop rows stale

/-- C8 counterexample: with debug assertions disabled (every release build),
`insert_stale_contexts` on the duplicated list [1, 1] does *not* abort: it
produces output. -/
theorem mem_c8_counterexample :
    (insert_stale_contexts false (List.replicate 4 MemColumns.zeros) [1, 1]).isSome = true := by
  decide

/-- C8 (amended): if debug assertions are enabled, a duplicated stale-context
list makes `insert_stale_contexts` abort via its `debug_assert!`; with debug
assertions disabled the check is compiled out, and (whenever every supplied
context is in bounds) the duplicate writes proceed and output is produced. -/
theorem mem_c8_stale_dup (rows : List (MemColumns Gl)) (stale : List Nat) :
    (staleContextsUnique stale = false → insert_stale_contexts true rows stale = none) ∧
    ((∀ c ∈ stale, c < rows.length) → (insert_stale_contexts false rows stale).isSome = true) := by
  constructor
  · intro hdup
    unfold insert_stale_contexts
    rw [if_pos ⟨rfl, hdup⟩]
  · intro hbound
    unfold insert_stale_contexts
    rw [if_neg (by simp)]
    induction stale generalizing rows with
    | nil => simp [insertStaleLoop]
    | cons c rest ih =>
      have hc : c < rows.length := hbound c (by simp)
      unfold insertStaleLoop
      rw [if_pos hc]
      exact ih _ fun x hx => by
        rw [List.length_set]
        exact hbound x (by simp [hx])

/-- Witness for C8's amended theorem: four all-zero rows and the duplicated
stale list [1, 1]. -/
theorem mem_c8_stale_dup_witness :
    insert_stale_contexts true (List.replicate 4 MemColumns.zeros) [1, 1] = none ∧
    (insert_stale_contexts false (List.replicate 4 MemColumns.zeros) [1, 1]).isSome = true :=
  ⟨(mem_c8_stale_dup (List.replicate 4 MemColumns.zeros) [1, 1]).1 (by decide),
    (mem_c8_stale_dup (List.replicate 4 MemColumns.zeros) [1, 1]).2 (by decide)⟩

/-! ### C2: the two constraint-evaluation modes -/

/-- The three constraint kinds a starky `ConstraintConsumer` accepts:
`constraint` (all rows), `constraint_transition` (all but the last row) and
`constraint_first_row`. -/
inductive CKind where
  | every
  | transition
  | firstRow
deriving DecidableEq

/-- Arithmetic expression graphs built by the recursive `CircuitBuilder`:
variables are `ExtensionTarget` wires, constants are (signed) base-field
constants, and gates add, subtract or multiply. -/
inductive Expr where
  | var (i : Nat)
  | konst (c : Int)
  | add (a b : Expr)
  | sub (a b : Expr)
  | mul (a b : Expr)

/-- `builder.one_extension()`. -/
def Expr.oneExt : Expr := .konst 1

/-- `builder.mul_sub_extension(a, b, c)` computes `a * b - c`. -/
def Expr.mulSubExt (a b c : Expr) : Expr := .sub (.mul a b) c

/-- `builder.mul_add_extension(a, b, c)` computes `a * b + c`. -/
def Expr.mulAddExt (a b c : Expr) : Expr := .add (.mul a b) c

/-- `builder.add_const_extension(a, c)` computes `a + c`. -/
def Expr.addConstExt (a : Expr) (c : Int) : Expr := .add a (.konst c)

/-- `builder.mul_many_extension(l)` computes the product of `l`. -/
def Expr.mulManyExt (l : List Expr) : Expr := l.foldl .mul (.konst 1)

/-- Substitute concrete values for the variables of an expression graph and
evaluate it. -/
def Expr.evalE {R : Type} [CommRing R] (env : Nat → R) : Expr → R
  | .var i => env i
  | .konst c => (c : R)
  | .add a b => a.evalE env + b.evalE env
  | .sub a b => a.evalE env - b.evalE env
  | .mul a b => a.evalE env * b.evalE env

namespace MemoryStark

/-- `MemoryStark::eval_packed_generic` (`memory_stark.rs` lines 473-625):
the checking-mode constraint evaluator over concrete field values, generic over
the (packed) field exactly as the source is; every constraint is emitted in
source order, tagged with the consumer method it is yielded to.  The
`VALUE_LIMBS = 8` loops are unrolled. -/
def eval_packed_generic {R : Type} [CommRing R] (lv nv : MemColumns R) : List (CKind × R) :=
  let one : R := 1
  let addressUnchanged : R := one - lv.context_first_change - lv.segment_first_change -
    lv.virtual_first_change
  let notAddressUnchanged : R := one - addressUnchanged
  let computedRangeCheck : R :=
    lv.context_first_change * (nv.addr_context - lv.addr_context - one) +
    lv.segment_first_change * (nv.addr_segment - lv.addr_segment - one) +
    lv.virtual_first_change * (nv.addr_virtual - lv.addr_virtual - one) +
    addressUnchanged * (nv.timestamp - lv.timestamp)
  [(CKind.every, lv.filter * (lv.filter - one)),
   (CKind.every, (one - lv.filter) * (one - lv.is_read)),
   (CKind.every, lv.context_first_change * (one - lv.context_first_change)),
   (CKind.every, lv.segment_first_change * (one - lv.segment_first_change)),
   (CKind.every, lv.virtual_first_change * (one - lv.virtual_first_change)),
   (CKind.every, addressUnchanged * (one - addressUnchanged)),
   (CKind.transition, lv.segment_first_change * (nv.addr_context - lv.addr_context)),
   (CKind.transition, lv.virtual_first_change * (nv.addr_context - lv.addr_context)),
   (CKind.transition, lv.virtual_first_change * (nv.addr_segment - lv.addr_segment)),
   (CKind.transition, addressUnchanged * (nv.addr_context - lv.addr_context)),
   (CKind.transition, addressUnchanged * (nv.addr_segment - lv.addr_segment)),
   (CKind.transition, addressUnchanged * (nv.addr_virtual - lv.addr_virtual)),
   (CKind.transition, lv.range_check - computedRangeCheck),
   (CKind.transition, lv.preinitialized_segments_aux -
     (nv.addr_segment - (segAccountsLinkedList : R)) *
       (nv.addr_segment - (segStorageLinkedList : R))),
   (CKind.transition, lv.preinitialized_segments -
     (nv.addr_segment - (segCode : R)) * (nv.addr_segment - (segTrieData : R)) *
       lv.preinitialized_segments_aux),
   (CKind.transition, lv.initialize_aux -
     lv.preinitialized_segments * notAddressUnchanged * nv.is_read),
   (CKind.transition, nv.is_read * addressUnchanged * (nv.value_limbs 0 - lv.value_limbs 0)),
   (CKind.transition, lv.initialize_aux * nv.value_limbs 0),
   (CKind.transition, nv.is_read * addressUnchanged * (nv.value_limbs 1 - lv.value_limbs 1)),
   (CKind.transition, lv.initialize_aux * nv.value_limbs 1),
   (CKind.transition, nv.is_read * addressUnchanged * (nv.value_limbs 2 - lv.value_limbs 2)),
   (CKind.transition, lv.initialize_aux * nv.value_limbs 2),
   (CKind.transition, nv.is_read * addressUnchanged * (nv.value_limbs 3 - lv.value_limbs 3)),
   (CKind.transition, lv.initialize_aux * nv.value_limbs 3),
   (CKind.transition, nv.is_read * addressUnchanged * (nv.value_limbs 4 - lv.value_limbs 4)),
   (CKind.transition, lv.initialize_aux * nv.value_limbs 4),
   (CKind.transition, nv.is_read * addressUnchanged * (nv.value_limbs 5 - lv.value_limbs 5)),
   (CKind.transition, lv.initialize_aux * nv.value_limbs 5),
   (CKind.transition, nv.is_read * addressUnchanged * (nv.value_limbs 6 - lv.value_limbs 6)),
   (CKind.transition, lv.initialize_aux * nv.value_limbs 6),
   (CKind.transition, nv.is_read * addressUnchanged * (nv.value_limbs 7 - lv.value_limbs 7)),
   (CKind.transition, lv.initialize_aux * nv.value_limbs 7),
   (CKind.transition, lv.maybe_in_mem_after +
     lv.filter * notAddressUnchanged * (lv.is_stale - one)),
   (CKind.every, lv.mem_after_filter * (lv.mem_after_filter - one)),
   (CKind.every, (lv.mem_after_filter - lv.maybe_in_mem_after) *
     lv.preinitialized_segments * lv.value_limbs 0),
   (CKind.every, (lv.mem_after_filter - lv.maybe_in_mem_after) *
     lv.preinitialized_segments * lv.value_limbs 1),
   (CKind.every, (lv.mem_after_filter - lv.maybe_in_mem_after) *
     lv.preinitialized_segments * lv.value_limbs 2),
   (CKind.every, (lv.mem_after_filter - lv.maybe_in_mem_after) *
     lv.preinitialized_segments * lv.value_limbs 3),
   (CKind.every, (lv.mem_after_filter - lv.maybe_in_mem_after) *
     lv.preinitialized_segments * lv.value_limbs 4),
   (CKind.every, (lv.mem_after_filter - lv.maybe_in_mem_after) *
     lv.preinitialized_segments * lv.value_limbs 5),
   (CKind.every, (lv.mem_after_filter - lv.maybe_in_mem_after) *
     lv.preinitialized_segments * lv.value_limbs 6),
   (CKind.every, (lv.mem_after_filter - lv.maybe_in_mem_after) *
     lv.preinitialized_segments * lv.value_limbs 7),
   (CKind.every, lv.timestamp * (lv.timestamp * lv.timestamp_inv - one)),
   (CKind.firstRow, lv.counter),
   (CKind.transition, (nv.counter - lv.counter) - one)]

/-- `MemoryStark::eval_ext_circuit` (`memory_stark.rs` lines 627-852): the
symbolic-mode constraint evaluator.  Starting from arbitrary expression wires
for the two rows, it builds an expression graph for every constraint through
the `CircuitBuilder` gadgets, in source order, with the same consumer tags.
The `VALUE_LIMBS = 8` loops are unrolled. -/
def eval_ext_circuit (lv nv : MemColumns Expr) : List (CKind × Expr) :=
  let one := Expr.oneExt
  let isDummy := Expr.sub one lv.filter
  let isWrite := Expr.sub one lv.is_read
  let addressUnchanged := Expr.sub (Expr.sub (Expr.sub one lv.context_first_change)
    lv.segment_first_change) lv.virtual_first_change
  let notContextFirstChange := Expr.sub one lv.context_first_change
  let notSegmentFirstChange := Expr.sub one lv.segment_first_change
  let notVirtualFirstChange := Expr.sub one lv.virtual_first_change
  let notAddressUnchanged := Expr.sub one addressUnchanged
  let addrContextDiff := Expr.sub nv.addr_context lv.addr_context
  let addrSegmentDiff := Expr.sub nv.addr_segment lv.addr_segment
  let addrVirtualDiff := Expr.sub nv.addr_virtual lv.addr_virtual
  let contextDiff := Expr.sub (Expr.sub nv.addr_context lv.addr_context) one
  let segmentDiff := Expr.sub (Expr.sub nv.addr_segment lv.addr_segment) one
  let segmentRangeCheck := Expr.mul lv.segment_first_change segmentDiff
  let virtualDiff := Expr.sub (Expr.sub nv.addr_virtual lv.addr_virtual) one
  let virtualRangeCheck := Expr.mul lv.virtual_first_change virtualDiff
  let timestampDiff := Expr.sub nv.timestamp lv.timestamp
  let timestampRangeCheck := Expr.mul addressUnchanged timestampDiff
  let computedRangeCheck := Expr.add (Expr.add
    (Expr.mulAddExt lv.context_first_change contextDiff segmentRangeCheck)
    virtualRangeCheck) timestampRangeCheck
  let segmentAccountsList := Expr.addConstExt nv.addr_segment (-(segAccountsLinkedList : Int))
  let segmentStorageList := Expr.addConstExt nv.addr_segment (-(segStorageLinkedList : Int))
  let segmentAuxProd := Expr.mul segmentAccountsList segmentStorageList
  let segmentCode := Expr.addConstExt nv.addr_segment (-(segCode : Int))
  let segmentTrieData := Expr.addConstExt nv.addr_segment (-(segTrieData : Int))
  let segmentProd := Expr.mulManyExt [segmentCode, segmentTrieData, lv.preinitialized_segments_aux]
  let computedInitializeAux := Expr.mul lv.preinitialized_segments
    (Expr.mul notAddressUnchanged nv.is_read)
  let maybeRhs0 := Expr.mul lv.filter notAddressUnchanged
  let maybeRhs := Expr.mulSubExt maybeRhs0 lv.is_stale maybeRhs0
  let memAfterFilterDiff := Expr.sub lv.mem_after_filter lv.maybe_in_mem_after
  [(CKind.every, Expr.mulSubExt lv.filter lv.filter lv.filter),
   (CKind.every, Expr.mul isDummy isWrite),
   (CKind.every, Expr.mul lv.context_first_change notContextFirstChange),
   (CKind.every, Expr.mul lv.segment_first_change notSegmentFirstChange),
   (CKind.every, Expr.mul lv.virtual_first_change notVirtualFirstChange),
   (CKind.every, Expr.mul addressUnchanged notAddressUnchanged),
   (CKind.transition, Expr.mul lv.segment_first_change addrContextDiff),
   (CKind.transition, Expr.mul lv.virtual_first_change addrContextDiff),
   (CKind.transition, Expr.mul lv.virtual_first_change addrSegmentDiff),
   (CKind.transition, Expr.mul addressUnchanged addrContextDiff),
   (CKind.transition, Expr.mul addressUnchanged addrSegmentDiff),
   (CKind.transition, Expr.mul addressUnchanged addrVirtualDiff),
   (CKind.transition, Expr.sub lv.range_check computedRangeCheck),
   (CKind.transition, Expr.sub lv.preinitialized_segments_aux segmentAuxProd),
   (CKind.transition, Expr.sub lv.preinitialized_segments segmentProd),
   (CKind.transition, Expr.sub lv.initialize_aux computedInitializeAux),
   (CKind.transition, Expr.mul nv.is_read
     (Expr.mul addressUnchanged (Expr.sub (nv.value_limbs 0) (lv.value_limbs 0)))),
   (CKind.transition, Expr.mul lv.initialize_aux (nv.value_limbs 0)),
   (CKind.transition, Expr.mul nv.is_read
     (Expr.mul addressUnchanged (Expr.sub (nv.value_limbs 1) (lv.value_limbs 1)))),
   (CKind.transition, Expr.mul lv.initialize_aux (nv.value_limbs 1)),
   (CKind.transition, Expr.mul nv.is_read
     (Expr.mul addressUnchanged (Expr.sub (nv.value_limbs 2) (lv.value_limbs 2)))),
   (CKind.transition, Expr.mul lv.initialize_aux (nv.value_limbs 2)),
   (CKind.transition, Expr.mul nv.is_read
     (Expr.mul addressUnchanged (Expr.sub (nv.value_limbs 3) (lv.value_limbs 3)))),
   (CKind.transition, Expr.mul lv.initialize_aux (nv.value_limbs 3)),
   (CKind.transition, Expr.mul nv.is_read
     (Expr.mul addressUnchanged (Expr.sub (nv.value_limbs 4) (lv.value_limbs 4)))),
   (CKind.transition, Expr.mul lv.initialize_aux (nv.value_limbs 4)),
   (CKind.transition, Expr.mul nv.is_read
     (Expr.mul addressUnchanged (Expr.sub (nv.value_limbs 5) (lv.value_limbs 5)))),
   (CKind.transition, Expr.mul lv.initialize_aux (nv.value_limbs 5)),
   (CKind.transition, Expr.mul nv.is_read
     (Expr.mul addressUnchanged (Expr.sub (nv.value_limbs 6) (lv.value_limbs 6)))),
   (CKind.transition, Expr.mul lv.initialize_aux (nv.value_limbs 6)),
   (CKind.transition, Expr.mul nv.is_read
     (Expr.mul addressUnchanged (Expr.sub (nv.value_limbs 7) (lv.value_limbs 7)))),
   (CKind.transition, Expr.mul lv.initialize_aux (nv.value_limbs 7)),
   (CKind.transition, Expr.add lv.maybe_in_mem_after maybeRhs),
   (CKind.every, Expr.mulSubExt lv.mem_after_filter lv.mem_after_filter lv.mem_after_filter),
   (CKind.every, Expr.mul memAfterFilterDiff
     (Expr.mul lv.preinitialized_segments (lv.value_limbs 0))),
   (CKind.every, Expr.mul memAfterFilterDiff
     (Expr.mul lv.preinitialized_segments (lv.value_limbs 1))),
   (CKind.every, Expr.mul memAfterFilterDiff
     (Expr.mul lv.preinitialized_segments (lv.value_limbs 2))),
   (CKind.every, Expr.mul memAfterFilterDiff
     (Expr.mul lv.preinitialized_segments (lv.value_limbs 3))),
   (CKind.every, Expr.mul memAfterFilterDiff
     (Expr.mul lv.preinitialized_segments (lv.value_limbs 4))),
   (CKind.every, Expr.mul memAfterFilterDiff
     (Expr.mul lv.preinitialized_segments (lv.value_limbs 5))),
   (CKind.every, Expr.mul memAfterFilterDiff
     (Expr.mul lv.preinitialized_segments (lv.value_limbs 6))),
   (CKind.every, Expr.mul memAfterFilterDiff
     (Expr.mul lv.preinitialized_segments (lv.value_limbs 7))),
   (CKind.every, Expr.mulSubExt lv.timestamp (Expr.mul lv.timestamp lv.timestamp_inv)
     lv.timestamp),
   (CKind.firstRow, lv.counter),
   (CKind.transition, Expr.sub (Expr.sub nv.counter lv.counter) one)]

end MemoryStark

/-- C2: for any assignment of concrete (commutative-ring) values to the wires
of two adjacent rows, evaluating every constraint in checking mode
(`eval_packed_generic`) and building the same constraint in symbolic circuit
mode (`eval_ext_circuit`) and then substituting the same concrete values into
the resulting expression graph yield identical constraint kinds and values:
the two modes encode identical logic. -/
theorem mem_c2_cross_mode {R : Type} [CommRing R] (env : Nat → R) (lv nv : MemColumns Expr) :
    (MemoryStark.eval_ext_circuit lv nv).map (fun c => (c.1, c.2.evalE env)) =
      MemoryStark.eval_packed_generic (lv.map (Expr.evalE env)) (nv.map (Expr.evalE env)) := by
  unfold MemoryStark.eval_ext_circuit MemoryStark.eval_packed_generic
  simp only [MemColumns.map, Expr.oneExt, Expr.mulSubExt, Expr.mulAddExt, Expr.addConstExt,
    Expr.mulManyExt, List.foldl, List.map_cons, List.map_nil, Expr.evalE, Prod.mk.injEq,
    List.cons.injEq, and_true, true_and]
  push_cast
  repeat' apply And.intro
  all_goals try rfl
  all_goals ring

/-! ### The column post-processor (`generate_trace_col_major`) -/

theorem getD_set {α : Type} (l : List α) (k j : Nat) (v d : α) :
    (l.set k v).getD j d = if k = j ∧ j < l.length then v else l.getD j d := by
  rw [List.getD_eq_getElem?_getD, List.getD_eq_getElem?_getD, List.getElem?_set]
  by_cases hkj : k = j
  · subst hkj
    by_cases hk : k < l.length
    · simp [hk]
    · simp [hk, List.getElem?_eq_none (le_of_not_lt hk)]
  · simp [hkj]

namespace MemoryStark

/-- `trace_col_vecs[frequencies][k] += 1`. -/
def bumpFreq (rows : List (MemColumns Gl)) (k : Nat) : List (MemColumns Gl) :=
  rows.set k
    (let r := rows.getD k MemColumns.zeros
     { r with frequencies := r.frequencies + 1 })

/-- The marking half of one iteration of the per-row loop of
`generate_trace_col_major` (`memory_stark.rs` lines 256-279): either mark the
row stale — when `addr_context + 1` matches the `stale_contexts` slot at the
row's context index (that indexing panics when the context is out of bounds,
modelled by `none`) — or, for an active row whose address changes, set
`maybe_in_mem_after` and, when some value limb is nonzero or the segment is
preinitialized, `mem_after_filter`. -/
def colStepMark (height : Nat) (rows2 : List (MemColumns Gl)) (i : Nat) :
    Option (List (MemColumns Gl)) :=
  let addrCtx := (rows2.getD i MemColumns.zeros).addr_context
  let ctxIdx := addrCtx.val
  if ctxIdx < height then
    if addrCtx + 1 = (rows2.getD ctxIdx MemColumns.zeros).stale_contexts then
      let rows3 := rows2.set i
        (let r := rows2.getD i MemColumns.zeros
         { r with is_stale := 1 })
      some (rows3.set ctxIdx
        (let r := rows3.getD ctxIdx MemColumns.zeros
         { r with stale_context_frequencies := r.stale_context_frequencies + 1 }))
    else
      if (rows2.getD i MemColumns.zeros).filter = 1 ∧
          ((rows2.getD i MemColumns.zeros).context_first_change = 1 ∨
            (rows2.getD i MemColumns.zeros).segment_first_change = 1 ∨
            (rows2.getD i MemColumns.zeros).virtual_first_change = 1) then
        let rows3 := rows2.set i
          (let r := rows2.getD i MemColumns.zeros
           { r with maybe_in_mem_after := 1 })
        let rowi3 := rows3.getD i MemColumns.zeros
        if (∃ j : Fin 8, rowi3.value_limbs j ≠ 0) ∨
            rowi3.addr_segment.val ∈ PREINITIALIZED_SEGMENTS_INDICES then
          some (rows3.set i { rowi3 with mem_after_filter := 1 })
        else
          some rows3
      else
        some rows2
  else none

/-- The frequency-bump half of one iteration of the per-row loop of
`generate_trace_col_major` (`memory_stark.rs` lines 241-254), on row-indexed
column data: bump the range-check frequency at index `range_check[i]`
(out-of-bounds indexing, which panics in the source, is modelled by `none`);
on a context/segment first-change additionally bump the frequency at index
`addr_virtual[i+1]` (index 0 for the last row). -/
def colStepBump (height : Nat) (rows : List (MemColumns Gl)) (i : Nat) :
    Option (List (MemColumns Gl)) :=
  let rowi := rows.getD i MemColumns.zeros
  let xRc := rowi.range_check.val
  if xRc < height then
    let rows1 := bumpFreq rows xRc
    if rowi.context_first_change = 1 ∨ rowi.segment_first_change = 1 then
      if i < height - 1 then
        let xVal := (rows1.getD (i + 1) MemColumns.zeros).addr_virtual.val
        if xVal < height then some (bumpFreq rows1 xVal) else none
      else
        some (bumpFreq rows1 0)
    else some rows1
  else none

/-- One iteration of the per-row loop: the frequency bumps, then the marking
half. -/
def colStep (height : Nat) (rows : List (MemColumns Gl)) (i : Nat) :
    Option (List (MemColumns Gl)) :=
  match colStepBump height rows i with
  | none => none
  | some rows2 => colStepMark height rows2 i

/-- `trace_col_vecs[counter] = (0..height).map(F::from_canonical_usize)`. -/
def setCounters : Nat → List (MemColumns Gl) → List (MemColumns Gl)
  | _, [] => []
  | i, r :: rest => { r with counter := (i : Gl) } :: setCounters (i + 1) rest

/-- The per-row loop of `generate_trace_col_major` over the given row indices. -/
def colLoop (height : Nat) : List (MemColumns Gl) → List Nat → Option (List (MemColumns Gl))
  | rows, [] => some rows
  | rows, i :: rest =>
    match colStep height rows i with
    | none => none
    | some rows' => colLoop height rows' rest

/-- `MemoryStark::generate_trace_col_major` (`memory_stark.rs` lines 236-281):
fill the `counter` column with the row indices, then run the per-row loop over
all rows.  (The transposition to column-major layout and back is a data-layout
detail; the fields of `MemColumns` are the columns.) -/
def generate_trace_col_major (rows : List (MemColumns Gl)) :
    Option (List (MemColumns Gl)) :=
  colLoop rows.length (setCounters 0 rows) (List.range rows.length)

/-- The columns the per-row loop never writes. -/
def ColFrame (r r' : MemColumns Gl) : Prop :=
  r'.filter = r.filter ∧ r'.addr_context = r.addr_context ∧
  r'.addr_segment = r.addr_segment ∧ r'.addr_virtual = r.addr_virtual ∧
  r'.value_limbs = r.value_limbs ∧ r'.context_first_change = r.context_first_change ∧
  r'.segment_first_change = r.segment_first_change ∧
  r'.virtual_first_change = r.virtual_first_change ∧
  r'.stale_contexts = r.stale_contexts ∧ r'.range_check = r.range_check

/-- The two final-state-view columns. -/
def SideEq (r r' : MemColumns Gl) : Prop :=
  r'.maybe_in_mem_after = r.maybe_in_mem_after ∧ r'.mem_after_filter = r.mem_after_filter

/-- State evolution that keeps the length, every frame column and both
final-state-view columns. -/
def StepFrame (rows rows' : List (MemColumns Gl)) : Prop :=
  rows'.length = rows.length ∧
  (∀ j, ColFrame (rows.getD j MemColumns.zeros) (rows'.getD j MemColumns.zeros)) ∧
  ∀ j, SideEq (rows.getD j MemColumns.zeros) (rows'.getD j MemColumns.zeros)

theorem colFrame_refl (r : MemColumns Gl) : ColFrame r r := by
  unfold ColFrame; exact ⟨rfl, rfl, rfl, rfl, rfl, rfl, rfl, rfl, rfl, rfl⟩

theorem colFrame_trans {a b c : MemColumns Gl} (h1 : ColFrame a b) (h2 : ColFrame b c) :
    ColFrame a c := by
  unfold ColFrame at *
  obtain ⟨e1, e2, e3, e4, e5, e6, e7, e8, e9, e10⟩ := h1
  obtain ⟨f1, f2, f3, f4, f5, f6, f7, f8, f9, f10⟩ := h2
  exact ⟨f1.trans e1, f2.trans e2, f3.trans e3, f4.trans e4, f5.trans e5, f6.trans e6,
    f7.trans e7, f8.trans e8, f9.trans e9, f10.trans e10⟩

theorem sideEq_refl (r : MemColumns Gl) : SideEq r r := ⟨rfl, rfl⟩

theorem sideEq_trans {a b c : MemColumns Gl} (h1 : SideEq a b) (h2 : SideEq b c) :
    SideEq a c := ⟨h2.1.trans h1.1, h2.2.trans h1.2⟩

theorem stepFrame_refl (rows : List (MemColumns Gl)) : StepFrame rows rows :=
  ⟨rfl, fun _ => colFrame_refl _, fun _ => sideEq_refl _⟩

theorem stepFrame_trans {a b c : List (MemColumns Gl)} (h1 : StepFrame a b)
    (h2 : StepFrame b c) : StepFrame a c :=
  ⟨h2.1.trans h1.1, fun j => colFrame_trans (h1.2.1 j) (h2.2.1 j), fun j => sideEq_trans (h1.2.2 j) (h2.2.2 j)⟩

theorem bumpFreq_stepFrame (rows : List (MemColumns Gl)) (k : Nat) :
    StepFrame rows (bumpFreq rows k) := by
  refine ⟨List.length_set rows k _, fun j => ?_, fun j => ?_⟩
  · unfold bumpFreq
    rw [getD_set]
    split
    · next hkj =>
      obtain ⟨rfl, _⟩ := hkj
      exact ⟨rfl, rfl, rfl, rfl, rfl, rfl, rfl, rfl, rfl, rfl⟩
    · exact colFrame_refl _
  · unfold bumpFreq
    rw [getD_set]
    split
    · next hkj =>
      obtain ⟨rfl, _⟩ := hkj
      exact ⟨rfl, rfl⟩
    · exact sideEq_refl _

/-- The stale test of the per-row loop at row `i`, as a function of the
loop-invariant columns. -/
def staleCond (rows : List (MemColumns Gl)) (i : Nat) : Prop :=
  (rows.getD i MemColumns.zeros).addr_context + 1 =
    (rows.getD ((rows.getD i MemColumns.zeros).addr_context.val)
      MemColumns.zeros).stale_contexts

/-- Row `i` is a final-state candidate: not stale, active, address changing. -/
def candCond (rows : List (MemColumns Gl)) (i : Nat) : Prop :=
  ¬ staleCond rows i ∧ (rows.getD i MemColumns.zeros).filter = 1 ∧
    ((rows.getD i MemColumns.zeros).context_first_change = 1 ∨
      (rows.getD i MemColumns.zeros).segment_first_change = 1 ∨
      (rows.getD i MemColumns.zeros).virtual_first_change = 1)

/-- Row `i` is kept in the final-state view: a candidate whose value is nonzero
or whose segment is preinitialized. -/
def keepCond (rows : List (MemColumns Gl)) (i : Nat) : Prop :=
  candCond rows i ∧
    ((∃ j : Fin 8, (rows.getD i MemColumns.zeros).value_limbs j ≠ 0) ∨
      (rows.getD i MemColumns.zeros).addr_segment.val ∈ PREINITIALIZED_SEGMENTS_INDICES)

instance (rows : List (MemColumns Gl)) (i : Nat) : Decidable (staleCond rows i) := by
  unfold staleCond; infer_instance

instance (rows : List (MemColumns Gl)) (i : Nat) : Decidable (candCond rows i) := by
  unfold candCond; infer_instance

instance (rows : List (MemColumns Gl)) (i : Nat) : Decidable (keepCond rows i) := by
  unfold keepCond; infer_instance

theorem staleCond_congr {a b : List (MemColumns Gl)}
    (h : ∀ j, ColFrame (a.getD j MemColumns.zeros) (b.getD j MemColumns.zeros)) (i : Nat) :
    staleCond b i ↔ staleCond a i := by
  unfold staleCond
  rw [(h i).2.1, (h ((a.getD i MemColumns.zeros).addr_context.val)).2.2.2.2.2.2.2.2.1]

theorem candCond_congr {a b : List (MemColumns Gl)}
    (h : ∀ j, ColFrame (a.getD j MemColumns.zeros) (b.getD j MemColumns.zeros)) (i : Nat) :
    candCond b i ↔ candCond a i := by
  unfold candCond
  rw [staleCond_congr h, (h i).1, (h i).2.2.2.2.2.1, (h i).2.2.2.2.2.2.1,
    (h i).2.2.2.2.2.2.2.1]

theorem keepCond_congr {a b : List (MemColumns Gl)}
    (h : ∀ j, ColFrame (a.getD j MemColumns.zeros) (b.getD j MemColumns.zeros)) (i : Nat) :
    keepCond b i ↔ keepCond a i := by
  unfold keepCond
  rw [candCond_congr h, (h i).2.2.2.2.1, (h i).2.2.1]

/-- Setting row `k` to an update of itself that keeps the frame and the
final-state-view columns is a `StepFrame` evolution. -/
theorem set_update_stepFrame (rows : List (MemColumns Gl)) (k : Nat)
    (f : MemColumns Gl → MemColumns Gl)
    (hf : ∀ r, ColFrame r (f r) ∧ SideEq r (f r)) :
    StepFrame rows (rows.set k (f (rows.getD k MemColumns.zeros))) := by
  refine ⟨List.length_set rows k _, fun j => ?_, fun j => ?_⟩
  · rw [getD_set]
    split
    · next he =>
      obtain ⟨rfl, _⟩ := he
      exact (hf _).1
    · exact colFrame_refl _
  · rw [getD_set]
    split
    · next he =>
      obtain ⟨rfl, _⟩ := he
      exact (hf _).2
    · exact sideEq_refl _

/-- Setting row `k` to an update of itself that keeps the frame columns keeps
the length, all frame columns, the view columns of every other row, and makes
row `k` the updated row (when `k` is in bounds). -/
theorem set_update_partFrame (rows : List (MemColumns Gl)) (k : Nat)
    (f : MemColumns Gl → MemColumns Gl) (hf : ∀ r, ColFrame r (f r)) :
    (rows.set k (f (rows.getD k MemColumns.zeros))).length = rows.length ∧
    (∀ j, ColFrame (rows.getD j MemColumns.zeros)
      ((rows.set k (f (rows.getD k MemColumns.zeros))).getD j MemColumns.zeros)) ∧
    (∀ j, j ≠ k → SideEq (rows.getD j MemColumns.zeros)
      ((rows.set k (f (rows.getD k MemColumns.zeros))).getD j MemColumns.zeros)) ∧
    ((rows.set k (f (rows.getD k MemColumns.zeros))).getD k MemColumns.zeros =
      if k < rows.length then f (rows.getD k MemColumns.zeros)
      else rows.getD k MemColumns.zeros) := by
  refine ⟨List.length_set rows k _, fun j => ?_, fun j hj => ?_, ?_⟩
  · rw [getD_set]
    split
    · next he =>
      obtain ⟨rfl, _⟩ := he
      exact hf _
    · exact colFrame_refl _
  · rw [getD_set, if_neg (by rintro ⟨rfl, _⟩; exact hj rfl)]
    exact sideEq_refl _
  · rw [getD_set]
    by_cases hk : k < rows.length
    · rw [if_pos ⟨rfl, hk⟩, if_pos hk]
    · rw [if_neg (by rintro ⟨_, hc⟩; exact hk hc), if_neg hk]

theorem colStepMark_some {height : Nat} {rows2 rows' : List (MemColumns Gl)} {i : Nat}
    (h : colStepMark height rows2 i = some rows') :
    rows'.length = rows2.length ∧
    (∀ j, ColFrame (rows2.getD j MemColumns.zeros) (rows'.getD j MemColumns.zeros)) ∧
    (∀ j, j ≠ i → SideEq (rows2.getD j MemColumns.zeros) (rows'.getD j MemColumns.zeros)) ∧
    ((rows'.getD i MemColumns.zeros).maybe_in_mem_after =
      if candCond rows2 i ∧ i < rows2.length then 1
      else (rows2.getD i MemColumns.zeros).maybe_in_mem_after) ∧
    ((rows'.getD i MemColumns.zeros).mem_after_filter =
      if keepCond rows2 i ∧ i < rows2.length then 1
      else (rows2.getD i MemColumns.zeros).mem_after_filter) := by
  unfold colStepMark at h
  dsimp only at h
  split at h
  case isFalse => exact absurd h (by simp)
  case isTrue hctx =>
  split at h
  · -- stale branch
    next hstale =>
    obtain rfl : _ = rows' := Option.some.injEq _ _ ▸ h
    have hsc : staleCond rows2 i := hstale
    have hnc : ¬ (candCond rows2 i ∧ i < rows2.length) := by
      rintro ⟨⟨hns, _⟩, _⟩; exact hns hsc
    have hnk : ¬ (keepCond rows2 i ∧ i < rows2.length) := by
      rintro ⟨⟨⟨hns, _⟩, _⟩, _⟩; exact hns hsc
    rw [if_neg hnc, if_neg hnk]
    have hs1 : StepFrame rows2 (rows2.set i
        (let r := rows2.getD i MemColumns.zeros; { r with is_stale := 1 })) :=
      set_update_stepFrame rows2 i (fun r => { r with is_stale := 1 })
        (fun r => ⟨⟨rfl, rfl, rfl, rfl, rfl, rfl, rfl, rfl, rfl, rfl⟩, rfl, rfl⟩)
    have hs2 : StepFrame rows2 _ := stepFrame_trans hs1
      (set_update_stepFrame _ ((rows2.getD i MemColumns.zeros).addr_context.val)
        (fun r => { r with stale_context_frequencies := r.stale_context_frequencies + 1 })
        (fun r => ⟨⟨rfl, rfl, rfl, rfl, rfl, rfl, rfl, rfl, rfl, rfl⟩, rfl, rfl⟩))
    exact ⟨hs2.1, hs2.2.1, fun j _ => hs2.2.2 j, (hs2.2.2 i).1, (hs2.2.2 i).2⟩
  · -- not stale
    next hnstale =>
    have hns : ¬ staleCond rows2 i := hnstale
    split at h
    · -- candidate branch
      next hcand =>
      have hlen : i < rows2.length := by
        by_contra hge
        have hzz : (rows2.getD i MemColumns.zeros) = MemColumns.zeros := by
          rw [List.getD_eq_getElem?_getD, List.getElem?_eq_none (by omega)]
          rfl
        rw [hzz] at hcand
        have h0 : (0 : Gl) = 1 := hcand.1
        exact absurd h0 (by decide)
      have hcc : candCond rows2 i := ⟨hns, hcand.1, hcand.2⟩
      have hp3 := set_update_partFrame rows2 i (fun r => { r with maybe_in_mem_after := 1 })
        (fun r => ⟨rfl, rfl, rfl, rfl, rfl, rfl, rfl, rfl, rfl, rfl⟩)
      set rows3 := rows2.set i
        (let r := rows2.getD i MemColumns.zeros; { r with maybe_in_mem_after := 1 }) with hrows3
      have h3i : rows3.getD i MemColumns.zeros =
          { rows2.getD i MemColumns.zeros with maybe_in_mem_after := 1 } := by
        rw [hrows3]
        exact hp3.2.2.2.trans (if_pos hlen)
      split at h
      · -- keep branch
        next hval =>
        obtain rfl : _ = rows' := Option.some.injEq _ _ ▸ h
        have hkc : keepCond rows2 i := by
          refine ⟨hcc, ?_⟩
          rw [h3i] at hval
          exact hval
        rw [if_pos ⟨hcc, hlen⟩, if_pos ⟨hkc, hlen⟩]
        have hp4 := set_update_partFrame rows3 i (fun r => { r with mem_after_filter := 1 })
          (fun r => ⟨rfl, rfl, rfl, rfl, rfl, rfl, rfl, rfl, rfl, rfl⟩)
        have hlen3 : i < rows3.length := by
          rw [hp3.1] at hp4 ⊢
          exact hlen
        refine ⟨hp4.1.trans hp3.1, fun j => colFrame_trans (hp3.2.1 j) (hp4.2.1 j),
          fun j hj => sideEq_trans (hp3.2.2.1 j hj) (hp4.2.2.1 j hj), ?_, ?_⟩
        · rw [hp4.2.2.2, if_pos hlen3, h3i]
        · rw [hp4.2.2.2, if_pos hlen3]
      · -- candidate, not kept
        next hval =>
        obtain rfl : _ = rows' := Option.some.injEq _ _ ▸ h
        have hnk : ¬ (keepCond rows2 i ∧ i < rows2.length) := by
          rintro ⟨⟨_, hv⟩, _⟩
          rw [h3i] at hval
          exact hval hv
        rw [if_pos ⟨hcc, hlen⟩, if_neg hnk]
        refine ⟨hp3.1, hp3.2.1, hp3.2.2.1, ?_, ?_⟩
        · rw [h3i]
        · rw [h3i]
    · -- neither stale nor a candidate
      next hncand =>
      obtain rfl : _ = rows' := Option.some.injEq _ _ ▸ h
      have hnc : ¬ (candCond rows2 i ∧ i < rows2.length) := by
        rintro ⟨⟨_, hf, hch⟩, _⟩
        exact hncand ⟨hf, hch⟩
      have hnk : ¬ (keepCond rows2 i ∧ i < rows2.length) := by
        rintro ⟨⟨⟨_, hf, hch⟩, _⟩, _⟩
        exact hncand ⟨hf, hch⟩
      rw [if_neg hnc, if_neg hnk]
      exact ⟨rfl, fun _ => colFrame_refl _, fun _ _ => sideEq_refl _, rfl, rfl⟩

theorem colStepBump_some {height : Nat} {rows rows2 : List (MemColumns Gl)} {i : Nat}
    (h : colStepBump height rows i = some rows2) : StepFrame rows rows2 := by
  unfold colStepBump at h
  dsimp only at h
  split at h
  case isFalse => exact absurd h (by simp)
  case isTrue =>
  split at h
  · split at h
    · split at h
      · obtain rfl : _ = rows2 := Option.some.injEq _ _ ▸ h
        exact stepFrame_trans (bumpFreq_stepFrame _ _) (bumpFreq_stepFrame _ _)
      · exact absurd h (by simp)
    · obtain rfl : _ = rows2 := Option.some.injEq _ _ ▸ h
      exact stepFrame_trans (bumpFreq_stepFrame _ _) (bumpFreq_stepFrame _ _)
  · obtain rfl : _ = rows2 := Option.some.injEq _ _ ▸ h
    exact bumpFreq_stepFrame _ _

theorem colStep_some {height : Nat} {rows rows' : List (MemColumns Gl)} {i : Nat}
    (h : colStep height rows i = some rows') :
    rows'.length = rows.length ∧
    (∀ j, ColFrame (rows.getD j MemColumns.zeros) (rows'.getD j MemColumns.zeros)) ∧
    (∀ j, j ≠ i → SideEq (rows.getD j MemColumns.zeros) (rows'.getD j MemColumns.zeros)) ∧
    ((rows'.getD i MemColumns.zeros).maybe_in_mem_after =
      if candCond rows i ∧ i < rows.length then 1
      else (rows.getD i MemColumns.zeros).maybe_in_mem_after) ∧
    ((rows'.getD i MemColumns.zeros).mem_after_filter =
      if keepCond rows i ∧ i < rows.length then 1
      else (rows.getD i MemColumns.zeros).mem_after_filter) := by
  unfold colStep at h
  cases hb : colStepBump height rows i with
  | none => rw [hb] at h; exact absurd h (by simp)
  | some rows2 =>
    rw [hb] at h
    have hsf : StepFrame rows rows2 := colStepBump_some hb
    obtain ⟨m1, m2, m3, m4, m5⟩ := colStepMark_some h
    have hcands : (candCond rows2 i ∧ i < rows2.length) ↔ (candCond rows i ∧ i < rows.length) := by
      rw [candCond_congr hsf.2.1, hsf.1]
    have hkeeps : (keepCond rows2 i ∧ i < rows2.length) ↔ (keepCond rows i ∧ i < rows.length) := by
      rw [keepCond_congr hsf.2.1, hsf.1]
    refine ⟨m1.trans hsf.1, fun j => colFrame_trans (hsf.2.1 j) (m2 j),
      fun j hj => sideEq_trans (hsf.2.2 j) (m3 j hj), ?_, ?_⟩
    · rw [m4]
      by_cases hc : candCond rows i ∧ i < rows.length
      · rw [if_pos (hcands.mpr hc), if_pos hc]
      · rw [if_neg (fun hx => hc (hcands.mp hx)), if_neg hc, (hsf.2.2 i).1]
    · rw [m5]
      by_cases hc : keepCond rows i ∧ i < rows.length
      · rw [if_pos (hkeeps.mpr hc), if_pos hc]
      · rw [if_neg (fun hx => hc (hkeeps.mp hx)), if_neg hc, (hsf.2.2 i).2]


theorem colLoop_spec {height : Nat} : ∀ (l : List Nat) (rows rows' : List (MemColumns Gl)),
    l.Nodup → colLoop height rows l = some rows' →
    rows'.length = rows.length ∧
    (∀ j, ColFrame (rows.getD j MemColumns.zeros) (rows'.getD j MemColumns.zeros)) ∧
    (∀ j, j ∉ l → SideEq (rows.getD j MemColumns.zeros) (rows'.getD j MemColumns.zeros)) ∧
    ∀ j ∈ l,
      ((rows'.getD j MemColumns.zeros).maybe_in_mem_after =
        if candCond rows j ∧ j < rows.length then 1
        else (rows.getD j MemColumns.zeros).maybe_in_mem_after) ∧
      ((rows'.getD j MemColumns.zeros).mem_after_filter =
        if keepCond rows j ∧ j < rows.length then 1
        else (rows.getD j MemColumns.zeros).mem_after_filter)
  | [], rows, rows', _, h => by
    obtain rfl : rows = rows' := Option.some.injEq _ _ ▸ h
    exact ⟨rfl, fun _ => colFrame_refl _, fun _ _ => sideEq_refl _,
      fun j hj => absurd hj (by simp)⟩
  | i :: rest, rows, rows', hnd, h => by
    unfold colLoop at h
    cases hs : colStep height rows i with
    | none => rw [hs] at h; exact absurd h (by simp)
    | some rows1 =>
      rw [hs] at h
      obtain ⟨s1, s2, s3, s4, s5⟩ := colStep_some hs
      have hirest : i ∉ rest := (List.nodup_cons.mp hnd).1
      obtain ⟨l1, l2, l3, l4⟩ := colLoop_spec rest rows1 rows' (List.nodup_cons.mp hnd).2 h
      refine ⟨l1.trans s1, fun j => colFrame_trans (s2 j) (l2 j), fun j hj => ?_, fun j hj => ?_⟩
      · have hji : j ≠ i := fun he => hj (he ▸ List.mem_cons_self i rest)
        have hjrest : j ∉ rest := fun he => hj (List.mem_cons_of_mem i he)
        exact sideEq_trans (s3 j hji) (l3 j hjrest)
      · rcases List.mem_cons.mp hj with rfl | hjr
        · have hside := l3 j hirest
          exact ⟨hside.1.trans s4, hside.2.trans s5⟩
        · obtain ⟨v1, v2⟩ := l4 j hjr
          by_cases hji : j = i
          · subst hji
            have hside := l3 j hirest
            exact ⟨hside.1.trans s4, hside.2.trans s5⟩
          · have hcands : (candCond rows1 j ∧ j < rows1.length) ↔
                (candCond rows j ∧ j < rows.length) := by
              rw [candCond_congr s2, s1]
            have hkeeps : (keepCond rows1 j ∧ j < rows1.length) ↔
                (keepCond rows j ∧ j < rows.length) := by
              rw [keepCond_congr s2, s1]
            constructor
            · rw [v1]
              by_cases hc : candCond rows j ∧ j < rows.length
              · rw [if_pos (hcands.mpr hc), if_pos hc]
              · rw [if_neg (fun hx => hc (hcands.mp hx)), if_neg hc, (s3 j hji).1]
            · rw [v2]
              by_cases hc : keepCond rows j ∧ j < rows.length
              · rw [if_pos (hkeeps.mpr hc), if_pos hc]
              · rw [if_neg (fun hx => hc (hkeeps.mp hx)), if_neg hc, (s3 j hji).2]

theorem setCounters_length (rows : List (MemColumns Gl)) : ∀ n,
    (setCounters n rows).length = rows.length := by
  induction rows with
  | nil => intro n; rfl
  | cons r rest ih =>
    intro n
    simp only [setCounters, List.length_cons, ih]

theorem setCounters_getD (rows : List (MemColumns Gl)) : ∀ n j,
    ColFrame (rows.getD j MemColumns.zeros)
      ((setCounters n rows).getD j MemColumns.zeros) ∧
    SideEq (rows.getD j MemColumns.zeros)
      ((setCounters n rows).getD j MemColumns.zeros) := by
  induction rows with
  | nil =>
    intro n j
    exact ⟨colFrame_refl _, sideEq_refl _⟩
  | cons r rest ih =>
    intro n j
    cases j with
    | zero =>
      exact ⟨⟨rfl, rfl, rfl, rfl, rfl, rfl, rfl, rfl, rfl, rfl⟩, rfl, rfl⟩
    | succ j =>
      simpa only [setCounters, List.getD_cons_succ] using ih (n + 1) j

end MemoryStark

/-- C3 counterexample: a concrete two-row trace whose row 0 is an active,
address-changing row with all-zero value limbs in preinitialized segment 7.
The Column Post-Processor *keeps* it (`mem_after_filter = 1`) even though the
claim says zero-valued entries in preinitialized segments are excluded. -/
def c3row0 : MemColumns Gl :=
  { MemColumns.zeros with
    filter := 1
    virtual_first_change := 1
    addr_segment := 7
    addr_virtual := 50 }

/-- The two-row trace of the C3 counterexample (see `c3row0`). -/
def c3rows : List (MemColumns Gl) :=
  [c3row0, MemColumns.zeros]

/-- C3 counterexample (see `c3rows`): the candidate row 0 has
`maybe_in_mem_after = 1`, a zero value and preinitialized segment 7, yet
`mem_after_filter = 1`: the zero-valued preinitialized entry is *kept*, not
excluded. -/
theorem mem_c3_counterexample :
    ((MemoryStark.generate_trace_col_major c3rows).map fun out =>
      ((out.getD 0 MemColumns.zeros).mem_after_filter,
        (out.getD 0 MemColumns.zeros).maybe_in_mem_after)) = some (1, 1) ∧
    (∀ j : Fin 8, (c3rows.getD 0 MemColumns.zeros).value_limbs j = 0) ∧
    (c3rows.getD 0 MemColumns.zeros).addr_segment.val ∈ PREINITIALIZED_SEGMENTS_INDICES := by
  decide

/-- C3 (amended): in the Column Post-Processor, for every row of a trace whose
`maybe_in_mem_after` and `mem_after_filter` columns start out zero,
`mem_after_filter` equals `maybe_in_mem_after` restricted so that *zero-valued
entries in non-preinitialized segments* are excluded from the final-state view;
candidates with a nonzero value limb or with a preinitialized segment are
kept. -/
theorem mem_c3_mem_after_filter (rows out : List (MemColumns Gl))
    (hz : ∀ r ∈ rows, r.maybe_in_mem_after = 0 ∧ r.mem_after_filter = 0)
    (h : MemoryStark.generate_trace_col_major rows = some out) (i : Nat)
    (hi : i < rows.length) :
    (out.getD i MemColumns.zeros).mem_after_filter = 1 ↔
      ((out.getD i MemColumns.zeros).maybe_in_mem_after = 1 ∧
        ((∃ j : Fin 8, (out.getD i MemColumns.zeros).value_limbs j ≠ 0) ∨
          (out.getD i MemColumns.zeros).addr_segment.val ∈ PREINITIALIZED_SEGMENTS_INDICES)) := by
  unfold MemoryStark.generate_trace_col_major at h
  have hcl := MemoryStark.colLoop_spec (List.range rows.length)
    (MemoryStark.setCounters 0 rows) out (List.nodup_range rows.length) h
  obtain ⟨v1, v2⟩ := hcl.2.2.2 i (List.mem_range.mpr hi)
  have hl0 : (MemoryStark.setCounters 0 rows).length = rows.length :=
    MemoryStark.setCounters_length rows 0
  have hf0 : ∀ j, MemoryStark.ColFrame (rows.getD j MemColumns.zeros)
      ((MemoryStark.setCounters 0 rows).getD j MemColumns.zeros) :=
    fun j => (MemoryStark.setCounters_getD rows 0 j).1
  have hs0 : ∀ j, MemoryStark.SideEq (rows.getD j MemColumns.zeros)
      ((MemoryStark.setCounters 0 rows).getD j MemColumns.zeros) :=
    fun j => (MemoryStark.setCounters_getD rows 0 j).2
  have hmem : rows.getD i MemColumns.zeros ∈ rows := by
    rw [List.getD_eq_getElem?_getD, List.getElem?_eq_getElem hi]
    exact List.getElem_mem hi
  obtain ⟨hm0, hmf0⟩ := hz _ hmem
  have hout : ∀ j, MemoryStark.ColFrame (rows.getD j MemColumns.zeros)
      (out.getD j MemColumns.zeros) := fun j => MemoryStark.colFrame_trans (hf0 j) (hcl.2.1 j)
  have hmaybe : (out.getD i MemColumns.zeros).maybe_in_mem_after =
      if MemoryStark.candCond rows i then 1 else 0 := by
    rw [v1]
    by_cases hc : MemoryStark.candCond rows i
    · rw [if_pos ⟨(MemoryStark.candCond_congr hf0 i).mpr hc, hl0 ▸ hi⟩, if_pos hc]
    · rw [if_neg (fun hx => hc ((MemoryStark.candCond_congr hf0 i).mp hx.1)), if_neg hc,
        (hs0 i).1, hm0]
  have hfilter : (out.getD i MemColumns.zeros).mem_after_filter =
      if MemoryStark.keepCond rows i then 1 else 0 := by
    rw [v2]
    by_cases hc : MemoryStark.keepCond rows i
    · rw [if_pos ⟨(MemoryStark.keepCond_congr hf0 i).mpr hc, hl0 ▸ hi⟩, if_pos hc]
    · rw [if_neg (fun hx => hc ((MemoryStark.keepCond_congr hf0 i).mp hx.1)), if_neg hc,
        (hs0 i).2, hmf0]
  have hvals : (out.getD i MemColumns.zeros).value_limbs =
      (rows.getD i MemColumns.zeros).value_limbs := (hout i).2.2.2.2.1
  have hseg : (out.getD i MemColumns.zeros).addr_segment =
      (rows.getD i MemColumns.zeros).addr_segment := (hout i).2.2.1
  rw [hmaybe, hfilter, hvals, hseg]
  by_cases hk : MemoryStark.keepCond rows i
  · rw [if_pos hk, if_pos hk.1]
    exact ⟨fun _ => ⟨rfl, hk.2⟩, fun _ => rfl⟩
  · rw [if_neg hk]
    constructor
    · intro h01
      exact absurd h01 (by decide)
    · rintro ⟨hmay, hvp⟩
      by_cases hc : MemoryStark.candCond rows i
      · exact absurd ⟨hc, hvp⟩ hk
      · rw [if_neg hc] at hmay
        exact absurd hmay (by decide)

/-- Witness for C3's amended theorem at the concrete trace `c3rows`, row 0. -/
theorem mem_c3_mem_after_filter_witness :
    ((((MemoryStark.generate_trace_col_major c3rows).getD []).getD 0
        MemColumns.zeros).mem_after_filter = 1 ↔
      (((((MemoryStark.generate_trace_col_major c3rows).getD []).getD 0
          MemColumns.zeros).maybe_in_mem_after = 1) ∧
        ((∃ j : Fin 8, (((MemoryStark.generate_trace_col_major c3rows).getD []).getD 0
            MemColumns.zeros).value_limbs j ≠ 0) ∨
          (((MemoryStark.generate_trace_col_major c3rows).getD []).getD 0
            MemColumns.zeros).addr_segment.val ∈ PREINITIALIZED_SEGMENTS_INDICES))) :=
  mem_c3_mem_after_filter c3rows ((MemoryStark.generate_trace_col_major c3rows).getD [])
    (by decide) (by rfl) 0 (by decide)

/-! ### C10: raw-context indexing in `generate_trace` -/

/-- The operation `generate_trace` pushes for each `mem_before` pair
(`memory_stark.rs` lines 415-423): an active write at timestamp 0. -/
def memBeforeOp (av : MemoryAddress × Nat) : MemoryOp :=
  { filter := true, timestamp := 0, address := av.1, kind := .Write, value := av.2 }

namespace MemoryStark

/-- `MemoryStark::generate_trace` (`memory_stark.rs` lines 407-462): push the
`mem_before` writes, generate the row-major trace, insert the stale contexts,
run the column post-processor, and extract the `MemAfterStark` values (a
leading 1, the address, and the value limbs of every row whose
`mem_after_filter` is set).  The transpositions are a data-layout detail. -/
def generate_trace (memoryOps : List MemoryOp) (memBeforeValues : List (MemoryAddress × Nat))
    (staleContexts : List Nat) (debugAssertions : Bool) :
    Option (List (MemColumns Gl) × List (List Gl) × Nat) :=
  let ops := memoryOps ++ memBeforeValues.map memBeforeOp
  match generate_trace_row_major ops with
  | none => none
  | some (rows, unpaddedLength) =>
    match insert_stale_contexts debugAssertions rows staleContexts with
    | none => none
    | some rows2 =>
      match generate_trace_col_major rows2 with
      | none => none
      | some rows3 =>
        let memAfterValues := rows3.filterMap fun row =>
          if row.mem_after_filter = 1 then
            some ([1, row.addr_context, row.addr_segment, row.addr_virtual] ++
              (List.finRange 8).map row.value_limbs)
          else none
        some (rows3, memAfterValues, unpaddedLength)

theorem ctxSegFillGo_addr (maxRc currTs : Nat) : ∀ (fuel : Nat) (next d : MemoryOp),
    d ∈ ctxSegFillGo maxRc currTs fuel next →
    d.address.context = next.address.context ∧ d.address.segment = next.address.segment := by
  intro fuel
  induction fuel with
  | zero => intro next d hd; exact absurd hd (by simp [ctxSegFillGo])
  | succ fuel ih =>
    intro next d hd
    unfold ctxSegFillGo at hd
    split at hd
    · rcases List.mem_cons.mp hd with rfl | hd'
      · exact ⟨rfl, rfl⟩
      · have h' := ih _ d hd'
        exact ⟨h'.1, h'.2⟩
    · exact absurd hd (by simp)

theorem virtFillGo_addr (maxRc : Nat) : ∀ (fuel : Nat) (curr next d : MemoryOp),
    d ∈ virtFillGo maxRc fuel curr next →
    d.address.context = curr.address.context ∧ d.address.segment = curr.address.segment := by
  intro fuel
  induction fuel with
  | zero => intro curr next d hd; exact absurd hd (by simp [virtFillGo])
  | succ fuel ih =>
    intro curr next d hd
    unfold virtFillGo at hd
    split at hd
    · rcases List.mem_cons.mp hd with rfl | hd'
      · exact ⟨rfl, rfl⟩
      · have h' := ih _ _ d hd'
        exact ⟨h'.1, h'.2⟩
    · exact absurd hd (by simp)

theorem tsFillGo_addr (maxRc : Nat) : ∀ (fuel : Nat) (curr : MemoryOp) (nextTs : Nat)
    (d : MemoryOp), d ∈ tsFillGo maxRc fuel curr nextTs → d.address = curr.address := by
  intro fuel
  induction fuel with
  | zero => intro curr nextTs d hd; exact absurd hd (by simp [tsFillGo])
  | succ fuel ih =>
    intro curr nextTs d hd
    unfold tsFillGo at hd
    split at hd
    · rcases List.mem_cons.mp hd with rfl | hd'
      · rfl
      · have h' := ih _ _ d hd'
        exact h'
    · exact absurd hd (by simp)

theorem fillWindow_context (maxRc : Nat) (curr next d : MemoryOp)
    (hd : d ∈ fillWindow maxRc curr next) :
    d.address.context = curr.address.context ∨ d.address.context = next.address.context := by
  unfold fillWindow at hd
  split at hd
  · exact Or.inr (ctxSegFillGo_addr _ _ _ _ _ hd).1
  · split at hd
    · exact Or.inl (virtFillGo_addr _ _ _ _ _ hd).1
    · exact Or.inl (by rw [tsFillGo_addr _ _ _ _ _ hd])

theorem fill_gaps_context (ops : List MemoryOp) (d : MemoryOp)
    (hd : d ∈ fill_gaps ops) :
    d.address.context = 0 ∨ ∃ op ∈ ops, d.address.context = op.address.context := by
  match ops with
  | [] => exact absurd hd (by simp [fill_gaps])
  | first :: rest =>
    unfold fill_gaps at hd
    dsimp only at hd
    have hwz : ∀ x, x ∈ (if first.address.virt ≠ 0 then
        MemoryOp.new_dummy_read ⟨0, 0, 0⟩ 1 0 :: first :: rest else first :: rest) →
        x.address.context = 0 ∨ x ∈ first :: rest := by
      intro x hx
      split at hx
      · rcases List.mem_cons.mp hx with rfl | hx'
        · exact Or.inl rfl
        · exact Or.inr hx'
      · exact Or.inr hx
    rcases List.mem_append.mp hd with hmem | hflat
    · rcases hwz d hmem with h0 | hin
      · exact Or.inl h0
      · exact Or.inr ⟨d, hin, rfl⟩
    · obtain ⟨p, hp, hdp⟩ := List.mem_flatMap.mp hflat
      have hp1 := (List.of_mem_zip hp).1
      have hp2 := List.mem_of_mem_tail (List.of_mem_zip hp).2
      rcases fillWindow_context _ _ _ _ hdp with hc | hc
      · rcases hwz p.1 hp1 with h0 | hin
        · exact Or.inl (hc.trans h0)
        · exact Or.inr ⟨p.1, hin, hc⟩
      · rcases hwz p.2 hp2 with h0 | hin
        · exact Or.inl (hc.trans h0)
        · exact Or.inr ⟨p.2, hin, hc⟩

theorem pad_memory_ops_context (ops : List MemoryOp) (d : MemoryOp)
    (hd : d ∈ pad_memory_ops ops) :
    ∃ op ∈ ops, d.address.context = op.address.context := by
  unfold pad_memory_ops at hd
  match hl : ops.getLast? with
  | none => rw [hl] at hd; exact absurd hd (by simp)
  | some lastOp =>
    rw [hl] at hd
    dsimp only at hd
    rcases List.mem_append.mp hd with hin | hrep
    · exact ⟨d, hin, rfl⟩
    · have hde := List.eq_of_mem_replicate hrep
      subst hde
      have hne : ops ≠ [] := by rintro rfl; simp at hl
      rw [List.getLast?_eq_getLast ops hne] at hl
      obtain rfl : ops.getLast hne = lastOp := Option.some.injEq _ _ ▸ hl
      exact ⟨_, List.getLast_mem hne, rfl⟩

theorem traceOps_context (ops : List MemoryOp) (d : MemoryOp)
    (hd : d ∈ traceOps ops) :
    d.address.context = 0 ∨ ∃ op ∈ ops, d.address.context = op.address.context := by
  unfold traceOps at hd
  have hd1 := (sortOps_perm _).mem_iff.mp hd
  obtain ⟨d2, hd2, hctx2⟩ := pad_memory_ops_context _ _ hd1
  have hd3 := (sortOps_perm _).mem_iff.mp hd2
  rcases fill_gaps_context _ _ hd3 with h0 | ⟨op, hop, hctx⟩
  · exact Or.inl (hctx2.trans h0)
  · exact Or.inr ⟨op, (sortOps_perm _).mem_iff.mp hop, hctx2.trans hctx⟩

theorem traceOps_sub (ops : List MemoryOp) (op : MemoryOp) (hop : op ∈ ops) :
    op ∈ traceOps ops := by
  unfold traceOps
  rw [(sortOps_perm _).mem_iff]
  unfold pad_memory_ops
  have hne : sortOps (fill_gaps (sortOps ops)) ≠ [] := by
    intro hcon
    have h1 : fill_gaps (sortOps ops) = [] :=
      List.eq_nil_of_length_eq_zero (by rw [← (sortOps_perm _).length_eq, hcon]; rfl)
    have h2 : op ∈ sortOps ops := (sortOps_perm _).mem_iff.mpr hop
    match hso : sortOps ops with
    | [] => rw [hso] at h2; exact absurd h2 (by simp)
    | first :: rest =>
      rw [hso] at h1
      unfold fill_gaps at h1
      dsimp only at h1
      rcases List.append_eq_nil.mp h1 with ⟨hwz, _⟩
      split at hwz
      · exact absurd hwz (by simp)
      · exact absurd hwz (by simp)
  rw [List.getLast?_eq_getLast _ hne]
  dsimp only
  refine List.mem_append.mpr (Or.inl ?_)
  rw [(sortOps_perm _).mem_iff]
  unfold fill_gaps
  match hso : sortOps ops with
  | [] =>
    have h2 : op ∈ sortOps ops := (sortOps_perm _).mem_iff.mpr hop
    rw [hso] at h2
    exact absurd h2 (by simp)
  | first :: rest =>
    dsimp only
    refine List.mem_append.mpr (Or.inl ?_)
    have h2 : op ∈ first :: rest := by
      rw [← hso]; exact (sortOps_perm _).mem_iff.mpr hop
    split
    · exact List.mem_cons_of_mem _ h2
    · exact h2

end MemoryStark

theorem insertStaleLoop_isSome : ∀ (stale : List Nat) (rows : List (MemColumns Gl)),
    (insertStaleLoop rows stale).isSome = true ↔ ∀ c ∈ stale, c < rows.length
  | [], rows => by simp [insertStaleLoop]
  | c :: rest, rows => by
    unfold insertStaleLoop
    by_cases hc : c < rows.length
    · rw [if_pos hc]
      rw [insertStaleLoop_isSome rest _]
      constructor
      · intro hall x hx
        rcases List.mem_cons.mp hx with rfl | hxr
        · exact hc
        · have := hall x hxr
          rwa [List.length_set] at this
      · intro hall x hx
        rw [List.length_set]
        exact hall x (List.mem_cons_of_mem _ hx)
    · rw [if_neg hc]
      constructor
      · intro hfalse
        exact absurd hfalse (by simp)
      · intro hall
        exact absurd (hall c (List.mem_cons_self c rest)) hc

theorem traceOps_length_pos (ops : List MemoryOp) (hne : ops ≠ []) :
    0 < (MemoryStark.traceOps ops).length := by
  unfold MemoryStark.traceOps
  rw [(sortOps_perm _).length_eq]
  have hne2 : sortOps (MemoryStark.fill_gaps (sortOps ops)) ≠ [] := by
    intro hcon
    have h1 : MemoryStark.fill_gaps (sortOps ops) = [] :=
      List.eq_nil_of_length_eq_zero (by rw [← (sortOps_perm _).length_eq, hcon]; rfl)
    match hso : sortOps ops with
    | [] =>
      have : (sortOps ops).length = ops.length := (sortOps_perm _).length_eq
      rw [hso] at this
      exact hne (List.eq_nil_of_length_eq_zero this.symm)
    | first :: rest =>
      rw [hso] at h1
      unfold MemoryStark.fill_gaps at h1
      dsimp only at h1
      rcases List.append_eq_nil.mp h1 with ⟨hwz, _⟩
      split at hwz
      · exact absurd hwz (by simp)
      · exact absurd hwz (by simp)
  obtain ⟨lastOp, _, _, hlen, _, hlt, _⟩ := mem_c7_pad_memory_ops _ hne2
  omega

/-- C10: `generate_trace` indexes trace rows by raw context index.  For any
non-empty combined operation list (the caller's operations plus the `mem_before`
writes) with canonical context indices, (i) the row indexing of
`insert_stale_contexts` is in bounds — its write loop succeeds — exactly when
every supplied stale-context identifier is below the padded trace length, and
(ii) every stale-marking lookup index `addr_context.val` of
`generate_trace_col_major` is below the padded trace length exactly when every
supplied operation's context index is, so under the two preconditions all that
indexing is in bounds. -/
theorem mem_c10_raw_context_indexing (memoryOps : List MemoryOp)
    (memBeforeValues : List (MemoryAddress × Nat)) (stale : List Nat)
    (hne : memoryOps ++ memBeforeValues.map memBeforeOp ≠ [])
    (hcp : ∀ op ∈ memoryOps ++ memBeforeValues.map memBeforeOp, op.address.context < glP) :
    (((insertStaleLoop
        ((MemoryStark.traceOps (memoryOps ++ memBeforeValues.map memBeforeOp)).map
          MemoryOp.into_row) stale).isSome = true) ↔
      ∀ c ∈ stale, c < ((MemoryStark.traceOps
        (memoryOps ++ memBeforeValues.map memBeforeOp)).map
          (MemoryOp.into_row (F := Gl))).length) ∧
    ((∀ row ∈ (MemoryStark.traceOps (memoryOps ++ memBeforeValues.map memBeforeOp)).map
        (MemoryOp.into_row (F := Gl)),
        row.addr_context.val < ((MemoryStark.traceOps
          (memoryOps ++ memBeforeValues.map memBeforeOp)).map
            (MemoryOp.into_row (F := Gl))).length) ↔
      ∀ op ∈ memoryOps ++ memBeforeValues.map memBeforeOp,
        op.address.context < ((MemoryStark.traceOps
          (memoryOps ++ memBeforeValues.map memBeforeOp)).map
            (MemoryOp.into_row (F := Gl))).length) := by
  set allOps := memoryOps ++ memBeforeValues.map memBeforeOp with hall
  set tops := MemoryStark.traceOps allOps with htops
  have hlen : (tops.map (MemoryOp.into_row (F := Gl))).length = tops.length :=
    List.length_map _ _
  have hctxval : ∀ op ∈ tops, ((op.into_row (F := Gl)).addr_context).val =
      op.address.context := by
    intro op hop
    have hlt : op.address.context < glP := by
      rcases MemoryStark.traceOps_context allOps op hop with h0 | ⟨op0, hop0, he⟩
      · rw [h0]; norm_num [glP]
      · rw [he]; exact hcp op0 hop0
    show ((op.address.context : Gl)).val = op.address.context
    rw [ZMod.val_natCast, Nat.mod_eq_of_lt hlt]
  constructor
  · rw [insertStaleLoop_isSome stale]
  · constructor
    · intro hrows op hop
      have hmem : (op.into_row (F := Gl)) ∈ tops.map MemoryOp.into_row :=
        List.mem_map.mpr ⟨op, MemoryStark.traceOps_sub allOps op hop, rfl⟩
      have := hrows _ hmem
      rwa [hctxval op (MemoryStark.traceOps_sub allOps op hop)] at this
    · intro hops row hrow
      obtain ⟨op, hop, rfl⟩ := List.mem_map.mp hrow
      rw [hctxval op hop]
      rcases MemoryStark.traceOps_context allOps op hop with h0 | ⟨op0, hop0, he⟩
      · rw [h0, hlen]
        exact traceOps_length_pos allOps hne
      · rw [he]
        exact hops op0 hop0

/-- Witness for C10 at the consistent two-operation list, no `mem_before`
values and the stale list [1]. -/
theorem mem_c10_raw_context_indexing_witness :
    (((insertStaleLoop
        ((MemoryStark.traceOps (writeReadOpsConsistent ++ ([] : List (MemoryAddress × Nat)).map
          memBeforeOp)).map MemoryOp.into_row) [1]).isSome = true) ↔
      ∀ c ∈ [1], c < ((MemoryStark.traceOps
        (writeReadOpsConsistent ++ ([] : List (MemoryAddress × Nat)).map memBeforeOp)).map
          (MemoryOp.into_row (F := Gl))).length) ∧
    ((∀ row ∈ (MemoryStark.traceOps (writeReadOpsConsistent ++
        ([] : List (MemoryAddress × Nat)).map memBeforeOp)).map (MemoryOp.into_row (F := Gl)),
        row.addr_context.val < ((MemoryStark.traceOps
          (writeReadOpsConsistent ++ ([] : List (MemoryAddress × Nat)).map memBeforeOp)).map
            (MemoryOp.into_row (F := Gl))).length) ↔
      ∀ op ∈ writeReadOpsConsistent ++ ([] : List (MemoryAddress × Nat)).map memBeforeOp,
        op.address.context < ((MemoryStark.traceOps
          (writeReadOpsConsistent ++ ([] : List (MemoryAddress × Nat)).map memBeforeOp)).map
            (MemoryOp.into_row (F := Gl))).length) :=
  mem_c10_raw_context_indexing writeReadOpsConsistent [] [1] (by simp [writeReadOpsConsistent])
    (by decide)

/-! ### C1: the range-check gap bound

The plan: the sorted, gap-filled, padded operation list is shown to have, at
every adjacent pair, a key gap that the final trace length bounds.  Each
`fill_gaps` window produces a chain of dummies whose consecutive gaps are at
most `max_rc`; the concatenation of all window chains (`canonicalOps`) is a
sorted permutation of the gap-filled list, so the sorted list has the same key
sequence, and padding appends key-identical rows.  The flag generator's
`range_check` values are exactly these key gaps (for canonical-range inputs),
so the source assertion cannot fire. -/

/-- The range-check value determined by two adjacent sort keys (the delta of
the first differing component, minus one for address components; the timestamp
delta for an unchanged address).  Natural subtraction; for `keyLE`-ordered
pairs this matches the field computation. -/
def gapRC (x y : SortKey) : Nat :=
  if x.1 ≠ y.1 then y.1 - x.1 - 1
  else if x.2.1 ≠ y.2.1 then y.2.1 - x.2.1 - 1
  else if x.2.2.1 ≠ y.2.2.1 then y.2.2.1 - x.2.2.1 - 1
  else y.2.2.2 - x.2.2.2

/-- A good adjacent key pair: ordered, and either the gap is at most `maxRc`
(gaps `fill_gaps` fills) or the context or segment changes (gaps `fill_gaps`
deliberately leaves to the smallness of context/segment indices). -/
def kgood (maxRc : Nat) (x y : SortKey) : Prop :=
  keyLE x y ∧ (gapRC x y ≤ maxRc ∨ x.1 ≠ y.1 ∨ x.2.1 ≠ y.2.1)

/-- `kgood` on operations through their sort keys. -/
def wgood (maxRc : Nat) (a b : MemoryOp) : Prop :=
  kgood maxRc a.sorting_key b.sorting_key

namespace MemoryStark

theorem ctxSegFillGo_mem_bounds (maxRc currTs : Nat) : ∀ (fuel : Nat) (next d : MemoryOp),
    d ∈ ctxSegFillGo maxRc currTs fuel next →
    0 < d.address.virt ∧ d.address.virt ≤ next.address.virt ∧ d.timestamp = currTs + 1 := by
  intro fuel
  induction fuel with
  | zero => intro next d hd; exact absurd hd (by simp [ctxSegFillGo])
  | succ fuel ih =>
    intro next d hd
    unfold ctxSegFillGo at hd
    split at hd
    · next hguard =>
      rcases List.mem_cons.mp hd with rfl | hd'
      · refine ⟨?_, ?_, rfl⟩
        · simp only [MemoryOp.new_dummy_read]
          omega
        · simp only [MemoryOp.new_dummy_read]
          omega
      · obtain ⟨h1, h2, h3⟩ := ih _ d hd'
        refine ⟨h1, le_trans h2 ?_, h3⟩
        simp only [MemoryOp.new_dummy_read]
        omega
    · exact absurd hd (by simp)

theorem kgood_same_cs_virt {maxRc : Nat} {x y : SortKey} (hc : x.1 = y.1) (hs : x.2.1 = y.2.1)
    (hv : x.2.2.1 < y.2.2.1) (hgap : y.2.2.1 - x.2.2.1 - 1 ≤ maxRc) : kgood maxRc x y := by
  unfold kgood keyLE gapRC
  refine ⟨by omega, Or.inl ?_⟩
  rw [if_neg (by omega), if_neg (by omega), if_pos (by omega)]
  omega

theorem kgood_same_addr {maxRc : Nat} {x y : SortKey} (hc : x.1 = y.1) (hs : x.2.1 = y.2.1)
    (hv : x.2.2.1 = y.2.2.1) (ht : x.2.2.2 ≤ y.2.2.2) (hgap : y.2.2.2 - x.2.2.2 ≤ maxRc) :
    kgood maxRc x y := by
  unfold kgood keyLE gapRC
  refine ⟨by omega, Or.inl ?_⟩
  rw [if_neg (by omega), if_neg (by omega), if_neg (by omega)]
  omega

theorem kgood_cs_change {maxRc : Nat} {x y : SortKey}
    (h : x.1 < y.1 ∨ (x.1 = y.1 ∧ x.2.1 < y.2.1)) : kgood maxRc x y := by
  unfold kgood keyLE
  exact ⟨by omega, Or.inr (by omega)⟩

/-- The ascending chain of a context/segment window: from the bottom element
(whose offset is at most `maxRc`, in `next`'s context/segment) up to `next`,
adjacent pairs are good. -/
theorem ctxSegFillGo_chain (maxRc currTs : Nat) (hm : 0 < maxRc) :
    ∀ (fuel : Nat) (next : MemoryOp), next.address.virt ≤ fuel →
    ∃ bot : MemoryOp,
      ((ctxSegFillGo maxRc currTs fuel next).reverse ++ [next]).head? = some bot ∧
      bot.address.virt ≤ maxRc ∧
      bot.address.context = next.address.context ∧
      bot.address.segment = next.address.segment ∧
      List.Chain' (wgood maxRc) ((ctxSegFillGo maxRc currTs fuel next).reverse ++ [next]) := by
  intro fuel
  induction fuel with
  | zero =>
    intro next hfuel
    refine ⟨next, ?_, by omega, rfl, rfl, ?_⟩
    · simp [ctxSegFillGo]
    · simp only [ctxSegFillGo, List.reverse_nil, List.nil_append]
      exact List.chain'_singleton next
  | succ fuel ih =>
    intro next hfuel
    by_cases hguard : maxRc < next.address.virt
    · set d := MemoryOp.new_dummy_read { next.address with virt := next.address.virt - maxRc }
        (currTs + 1) 0 with hdd
      have hstep : ctxSegFillGo maxRc currTs (fuel + 1) next =
          d :: ctxSegFillGo maxRc currTs fuel d := by
        conv_lhs => rw [ctxSegFillGo]
        rw [if_pos hguard]
      have hdv : d.address.virt = next.address.virt - maxRc := rfl
      have hdc : d.address.context = next.address.context := rfl
      have hds : d.address.segment = next.address.segment := rfl
      have hdfuel : d.address.virt ≤ fuel := by omega
      obtain ⟨bot, hb1, hb2, hb3, hb4, hb5⟩ := ih d hdfuel
      have hlink : wgood maxRc d next := by
        apply kgood_same_cs_virt
        · show d.address.context = next.address.context
          exact hdc
        · show d.address.segment = next.address.segment
          exact hds
        · show d.address.virt < next.address.virt
          omega
        · show next.address.virt - d.address.virt - 1 ≤ maxRc
          omega
      refine ⟨bot, ?_, hb2, by rw [hb3, hdc], by rw [hb4, hds], ?_⟩
      · rw [hstep, List.reverse_cons, List.append_assoc]
        cases hrev : (ctxSegFillGo maxRc currTs fuel d).reverse with
        | nil =>
          rw [hrev] at hb1
          simpa using hb1
        | cons e t =>
          rw [hrev] at hb1
          simpa using hb1
      · rw [hstep, List.reverse_cons, List.append_assoc]
        have : List.Chain' (wgood maxRc)
            (((ctxSegFillGo maxRc currTs fuel d).reverse ++ [d]) ++ [next]) := by
          rw [List.chain'_append]
          refine ⟨hb5, List.chain'_singleton next, ?_⟩
          intro x hx y hy
          rw [List.getLast?_concat] at hx
          obtain rfl : d = x := Option.some.injEq _ _ ▸ hx
          obtain rfl : next = y := Option.some.injEq _ _ ▸ hy
          exact hlink
        simpa [List.append_assoc] using this
    · refine ⟨next, ?_, by omega, rfl, rfl, ?_⟩
      · have : ctxSegFillGo maxRc currTs (fuel + 1) next = [] := by
          conv_lhs => rw [ctxSegFillGo]
          rw [if_neg hguard]
        rw [this]
        rfl
      · have : ctxSegFillGo maxRc currTs (fuel + 1) next = [] := by
          conv_lhs => rw [ctxSegFillGo]
          rw [if_neg hguard]
        rw [this]
        exact List.chain'_singleton next

theorem opLE_components {a b : MemoryOp} (h : opLE a b) :
    a.address.context < b.address.context ∨ (a.address.context = b.address.context ∧
      (a.address.segment < b.address.segment ∨ (a.address.segment = b.address.segment ∧
        (a.address.virt < b.address.virt ∨ (a.address.virt = b.address.virt ∧
          a.timestamp ≤ b.timestamp))))) := h

theorem opLE_of_components {a b : MemoryOp}
    (h : a.address.context < b.address.context ∨ (a.address.context = b.address.context ∧
      (a.address.segment < b.address.segment ∨ (a.address.segment = b.address.segment ∧
        (a.address.virt < b.address.virt ∨ (a.address.virt = b.address.virt ∧
          a.timestamp ≤ b.timestamp)))))) : opLE a b := h

/-- The chain of a virtual-offset window: from `curr` through the
offset-stepping dummies to `next`, adjacent pairs are good. -/
theorem virtFillGo_chain (maxRc : Nat) : ∀ (fuel : Nat) (curr next : MemoryOp),
    next.address.virt - curr.address.virt ≤ fuel →
    curr.address.context = next.address.context →
    curr.address.segment = next.address.segment →
    curr.address.virt < next.address.virt →
    List.Chain' (wgood maxRc) (curr :: virtFillGo maxRc fuel curr next ++ [next]) := by
  intro fuel
  induction fuel with
  | zero =>
    intro curr next hfuel _ _ hv
    omega
  | succ fuel ih =>
    intro curr next hfuel hc hs hv
    by_cases hguard : maxRc < next.address.virt - curr.address.virt - 1
    · set d := MemoryOp.new_dummy_read { curr.address with virt := curr.address.virt + maxRc + 1 }
        (curr.timestamp + 1) 0 with hdd
      have hstep : virtFillGo maxRc (fuel + 1) curr next = d :: virtFillGo maxRc fuel d next := by
        conv_lhs => rw [virtFillGo]
        rw [if_pos hguard]
      rw [hstep]
      have hdv : d.address.virt = curr.address.virt + maxRc + 1 := rfl
      have hdc : d.address.context = curr.address.context := rfl
      have hds : d.address.segment = curr.address.segment := rfl
      have htail : List.Chain' (wgood maxRc) (d :: virtFillGo maxRc fuel d next ++ [next]) := by
        apply ih d next (by omega) (by omega) (by omega) (by omega)
      have hlink : wgood maxRc curr d := by
        apply kgood_same_cs_virt
        · show curr.address.context = d.address.context
          omega
        · show curr.address.segment = d.address.segment
          omega
        · show curr.address.virt < d.address.virt
          omega
        · show d.address.virt - curr.address.virt - 1 ≤ maxRc
          omega
      rw [List.cons_append]
      exact List.chain'_cons.mpr ⟨hlink, by simpa using htail⟩
    · have hstep : virtFillGo maxRc (fuel + 1) curr next = [] := by
        conv_lhs => rw [virtFillGo]
        rw [if_neg hguard]
      rw [hstep]
      refine List.chain'_pair.mpr ?_
      apply kgood_same_cs_virt
      · show curr.address.context = next.address.context
        exact hc
      · show curr.address.segment = next.address.segment
        exact hs
      · show curr.address.virt < next.address.virt
        exact hv
      · show next.address.virt - curr.address.virt - 1 ≤ maxRc
        omega

/-- The chain of a same-address (timestamp) window: from `curr` through the
timestamp-stepping dummies to `next`, adjacent pairs are good. -/
theorem tsFillGo_chain (maxRc : Nat) (hm : 0 < maxRc) : ∀ (fuel : Nat) (curr next : MemoryOp),
    next.timestamp - curr.timestamp ≤ fuel →
    curr.address.context = next.address.context →
    curr.address.segment = next.address.segment →
    curr.address.virt = next.address.virt →
    curr.timestamp ≤ next.timestamp →
    List.Chain' (wgood maxRc) (curr :: tsFillGo maxRc fuel curr next.timestamp ++ [next]) := by
  intro fuel
  induction fuel with
  | zero =>
    intro curr next hfuel hc hs hv ht
    have hstep : tsFillGo maxRc 0 curr next.timestamp = [] := rfl
    rw [hstep]
    refine List.chain'_pair.mpr ?_
    apply kgood_same_addr
    · show curr.address.context = next.address.context
      exact hc
    · show curr.address.segment = next.address.segment
      exact hs
    · show curr.address.virt = next.address.virt
      exact hv
    · show curr.timestamp ≤ next.timestamp
      exact ht
    · show next.timestamp - curr.timestamp ≤ maxRc
      omega
  | succ fuel ih =>
    intro curr next hfuel hc hs hv ht
    by_cases hguard : maxRc < next.timestamp - curr.timestamp
    · set d := MemoryOp.new_dummy_read curr.address (curr.timestamp + maxRc) curr.value with hdd
      have hstep : tsFillGo maxRc (fuel + 1) curr next.timestamp =
          d :: tsFillGo maxRc fuel d next.timestamp := by
        conv_lhs => rw [tsFillGo]
        rw [if_pos hguard]
      rw [hstep]
      have hdts : d.timestamp = curr.timestamp + maxRc := rfl
      have hda : d.address = curr.address := rfl
      have htail : List.Chain' (wgood maxRc) (d :: tsFillGo maxRc fuel d next.timestamp ++ [next]) := by
        apply ih d next (by omega) (by rw [hda]; exact hc) (by rw [hda]; exact hs)
          (by rw [hda]; exact hv) (by omega)
      have hlink : wgood maxRc curr d := by
        apply kgood_same_addr
        · show curr.address.context = d.address.context
          rw [hda]
        · show curr.address.segment = d.address.segment
          rw [hda]
        · show curr.address.virt = d.address.virt
          rw [hda]
        · show curr.timestamp ≤ d.timestamp
          omega
        · show d.timestamp - curr.timestamp ≤ maxRc
          omega
      rw [List.cons_append]
      exact List.chain'_cons.mpr ⟨hlink, by simpa using htail⟩
    · have hstep : tsFillGo maxRc (fuel + 1) curr next.timestamp = [] := by
        conv_lhs => rw [tsFillGo]
        rw [if_neg hguard]
      rw [hstep]
      refine List.chain'_pair.mpr ?_
      apply kgood_same_addr
      · show curr.address.context = next.address.context
        exact hc
      · show curr.address.segment = next.address.segment
        exact hs
      · show curr.address.virt = next.address.virt
        exact hv
      · show curr.timestamp ≤ next.timestamp
        exact ht
      · show next.timestamp - curr.timestamp ≤ maxRc
        omega

/-- The window dummies of `fillWindow`, in ascending sorted order. -/
def chainOf (maxRc : Nat) (curr next : MemoryOp) : List MemoryOp :=
  if curr.address.context ≠ next.address.context ∨
      curr.address.segment ≠ next.address.segment then
    (ctxSegFill maxRc curr.timestamp next).reverse
  else if curr.address.virt ≠ next.address.virt then
    virtFill maxRc curr next
  else
    tsFill maxRc curr next.timestamp

theorem chainOf_perm (maxRc : Nat) (curr next : MemoryOp) :
    (chainOf maxRc curr next).Perm (fillWindow maxRc curr next) := by
  unfold chainOf fillWindow
  split
  · exact List.reverse_perm _
  · split
    · exact List.Perm.refl _
    · exact List.Perm.refl _

/-- Every `fill_gaps` window yields a good chain from `curr` to `next`. -/
theorem chainOf_chain (maxRc : Nat) (hm : 0 < maxRc) (curr next : MemoryOp)
    (hle : opLE curr next) :
    List.Chain' (wgood maxRc) (curr :: chainOf maxRc curr next ++ [next]) := by
  have hcomp := opLE_components hle
  unfold chainOf
  split
  · next hcs =>
    obtain ⟨bot, hb1, hb2, hb3, hb4, hb5⟩ :=
      ctxSegFillGo_chain maxRc curr.timestamp hm next.address.virt next (le_refl _)
    rw [List.cons_append]
    refine List.chain'_cons'.mpr ⟨?_, ?_⟩
    · intro y hy
      have hyb : y = bot := by
        rw [show ctxSegFill maxRc curr.timestamp next =
          ctxSegFillGo maxRc curr.timestamp next.address.virt next from rfl] at hy
        rw [hb1] at hy
        exact (Option.mem_some_iff.mp hy).symm
      subst hyb
      apply kgood_cs_change
      show curr.address.context < y.address.context ∨
        (curr.address.context = y.address.context ∧
          curr.address.segment < y.address.segment)
      rw [hb3, hb4]
      omega
    · exact hb5
  · next hcs =>
    split
    · next hv =>
      push_neg at hcs
      exact virtFillGo_chain maxRc (next.address.virt - curr.address.virt) curr next
        (le_refl _) hcs.1 hcs.2 (by omega)
    · next hv =>
      push_neg at hcs hv
      exact tsFillGo_chain maxRc hm (next.timestamp - curr.timestamp) curr next
        (le_refl _) hcs.1 hcs.2 hv (by omega)

/-- The output of one `fill_gaps` pass reassembled in ascending sorted order:
each adjacent window's dummies are interleaved between their endpoints. -/
def canonChain (maxRc : Nat) : List MemoryOp → List MemoryOp
  | [] => []
  | [a] => [a]
  | a :: b :: rest => a :: chainOf maxRc a b ++ canonChain maxRc (b :: rest)

theorem canonChain_cons_cons (maxRc : Nat) (a b : MemoryOp) (rest : List MemoryOp) :
    canonChain maxRc (a :: b :: rest) =
      a :: chainOf maxRc a b ++ canonChain maxRc (b :: rest) := rfl

theorem canonChain_exists_tail (maxRc : Nat) (a : MemoryOp) (l : List MemoryOp) :
    ∃ t, canonChain maxRc (a :: l) = a :: t := by
  cases l with
  | nil => exact ⟨[], rfl⟩
  | cons b rest => exact ⟨_, rfl⟩

/-- `canonChain` is a permutation of the endpoint list followed by all window
dummies, which is the order `fill_gaps` emits. -/
theorem canonChain_perm (maxRc : Nat) : ∀ (l : List MemoryOp),
    (canonChain maxRc l).Perm
      (l ++ (l.zip l.tail).flatMap fun p => fillWindow maxRc p.1 p.2) := by
  intro l
  induction l with
  | nil => simp [canonChain]
  | cons a l ih =>
    cases l with
    | nil => simp [canonChain]
    | cons b rest =>
      rw [canonChain_cons_cons]
      simp only [List.tail_cons, List.zip_cons_cons, List.flatMap_cons, List.cons_append]
      apply List.Perm.cons a
      have h1 := List.Perm.append_left (chainOf maxRc a b) ih
      refine h1.trans ?_
      rw [← List.append_assoc]
      have h2 := List.Perm.append_right
        ((b :: rest).zip rest |>.flatMap fun p => fillWindow maxRc p.1 p.2)
        (show (chainOf maxRc a b ++ (b :: rest)).Perm ((b :: rest) ++ chainOf maxRc a b) from
          List.perm_append_comm)
      refine h2.trans ?_
      rw [List.append_assoc]
      apply List.Perm.append_left
      exact List.Perm.append_right _ (chainOf_perm maxRc a b)

theorem chain_glue {α : Type} {R : α → α → Prop} {xs t : List α} {b : α}
    (h1 : List.Chain' R (xs ++ [b])) (h2 : List.Chain' R (b :: t)) :
    List.Chain' R (xs ++ b :: t) := by
  rw [List.chain'_append] at h1 ⊢
  refine ⟨h1.1, h2, ?_⟩
  intro x hx y hy
  simp only [List.head?_cons, Option.mem_some_iff] at hy
  subst hy
  exact h1.2.2 x hx b (by simp)

/-- On a sorted endpoint list, every adjacent pair of the reassembled
`fill_gaps` output is good. -/
theorem canonChain_chain (maxRc : Nat) (hm : 0 < maxRc) : ∀ (l : List MemoryOp),
    List.Chain' opLE l → List.Chain' (wgood maxRc) (canonChain maxRc l) := by
  intro l
  induction l with
  | nil => intro _; simp [canonChain]
  | cons a l ih =>
    cases l with
    | nil => intro _; simp [canonChain]
    | cons b rest =>
      intro hs
      rw [List.chain'_cons] at hs
      obtain ⟨t, ht⟩ := canonChain_exists_tail maxRc b rest
      rw [canonChain_cons_cons, ht]
      have h2 : List.Chain' (wgood maxRc) (b :: t) := ht ▸ ih hs.2
      have h1 := chainOf_chain maxRc hm a b hs.1
      rw [show a :: chainOf maxRc a b ++ b :: t = (a :: chainOf maxRc a b) ++ b :: t from rfl]
      exact chain_glue (by simpa using h1) h2

/-- The snapshot list over whose adjacent windows `fill_gaps` iterates: the
input with the bootstrap (0,0,0) dummy read prepended when the first
operation's virtual offset is nonzero. -/
def withZeroOf (l : List MemoryOp) : List MemoryOp :=
  match l with
  | [] => []
  | first :: _ =>
    if first.address.virt ≠ 0 then MemoryOp.new_dummy_read ⟨0, 0, 0⟩ 1 0 :: l else l

theorem fill_gaps_eq : ∀ (l : List MemoryOp), l ≠ [] →
    MemoryStark.fill_gaps l = withZeroOf l ++
      ((withZeroOf l).zip (withZeroOf l).tail).flatMap
        (fun p => MemoryStark.fillWindow (nextPow2 (withZeroOf l).length - 1) p.1 p.2) := by
  intro l hne
  cases l with
  | nil => exact absurd rfl hne
  | cons a t => rfl

theorem withZeroOf_length_le (l : List MemoryOp) : l.length ≤ (withZeroOf l).length := by
  cases l with
  | nil => simp [withZeroOf]
  | cons a t =>
    simp only [withZeroOf]
    split <;> simp

theorem fill_gaps_length_ge (l : List MemoryOp) (hne : l ≠ []) :
    (withZeroOf l).length ≤ (MemoryStark.fill_gaps l).length := by
  rw [fill_gaps_eq l hne, List.length_append]
  omega

/-- Under the prepending condition, the bootstrap dummy is below every
operation whose offset is nonzero, so the snapshot of a sorted list is
sorted. -/
theorem withZeroOf_chain (l : List MemoryOp) (hs : List.Sorted opLE l) :
    List.Chain' opLE (withZeroOf l) := by
  cases l with
  | nil => simp [withZeroOf]
  | cons a t =>
    simp only [withZeroOf]
    have hchain : List.Chain' opLE (a :: t) := hs.chain'
    split
    · next hv =>
      refine List.chain'_cons.mpr ⟨?_, hchain⟩
      apply opLE_of_components
      show (0 : Nat) < a.address.context ∨ ((0 : Nat) = a.address.context ∧
        ((0 : Nat) < a.address.segment ∨ ((0 : Nat) = a.address.segment ∧
          ((0 : Nat) < a.address.virt ∨ ((0 : Nat) = a.address.virt ∧ 1 ≤ a.timestamp)))))
      omega
    · exact hchain

/-- Elements with equal keys compare equal under `keyLE` in both directions;
equal key lists follow from sortedness on both sides of a permutation. -/
theorem keymap_eq_of_perm_of_sorted {l1 l2 : List MemoryOp} (hp : l1.Perm l2)
    (h1 : List.Sorted opLE l1) (h2 : List.Sorted opLE l2) :
    l1.map MemoryOp.sorting_key = l2.map MemoryOp.sorting_key := by
  have s1 : List.Sorted keyLE (l1.map MemoryOp.sorting_key) := by
    show List.Pairwise keyLE _
    rw [List.pairwise_map]
    exact h1
  have s2 : List.Sorted keyLE (l2.map MemoryOp.sorting_key) := by
    show List.Pairwise keyLE _
    rw [List.pairwise_map]
    exact h2
  exact List.eq_of_perm_of_sorted (hp.map MemoryOp.sorting_key) s1 s2

theorem wgood_opLE {maxRc : Nat} {a b : MemoryOp} (h : wgood maxRc a b) : opLE a b := h.1

/-- `canonChain` of a sorted snapshot is itself sorted. -/
theorem canonChain_sorted (maxRc : Nat) (l : List MemoryOp)
    (h : List.Chain' (wgood maxRc) (canonChain maxRc l)) :
    List.Sorted opLE (canonChain maxRc l) := by
  show List.Pairwise opLE _
  rw [← List.chain'_iff_pairwise]
  exact List.Chain'.imp (fun a b hab => wgood_opLE hab) h

/-- The chain property for `canonChain` without a positivity side condition:
when the snapshot has at most one element there are no windows and the chain
is trivial, and otherwise `maxRc = nextPow2 len - 1 ≥ 1`. -/
theorem canonChain_chain_auto (l : List MemoryOp) (hs : List.Chain' opLE l) :
    List.Chain' (wgood (nextPow2 l.length - 1)) (canonChain (nextPow2 l.length - 1) l) := by
  match l with
  | [] => simp [canonChain]
  | [a] => simp [canonChain]
  | a :: b :: rest =>
    apply canonChain_chain _ _ _ hs
    have h2 : 2 ≤ (a :: b :: rest).length := by simp
    have := le_nextPow2 (a :: b :: rest).length
    omega

/-- The sorted output of the gap-filling pass has good adjacent key pairs. -/
theorem fill_stage_chain (l : List MemoryOp) (hne : l ≠ []) (hs : List.Sorted opLE l) :
    List.Chain' (kgood (nextPow2 (withZeroOf l).length - 1))
      ((sortOps (MemoryStark.fill_gaps l)).map MemoryOp.sorting_key) := by
  set maxRc := nextPow2 (withZeroOf l).length - 1 with hmr
  have hchain : List.Chain' (wgood maxRc) (canonChain maxRc (withZeroOf l)) :=
    canonChain_chain_auto (withZeroOf l) (withZeroOf_chain l hs)
  have hperm : (canonChain maxRc (withZeroOf l)).Perm (sortOps (MemoryStark.fill_gaps l)) := by
    refine ((canonChain_perm maxRc (withZeroOf l)).trans ?_).trans (sortOps_perm _).symm
    rw [fill_gaps_eq l hne]
  have hkeys : (canonChain maxRc (withZeroOf l)).map MemoryOp.sorting_key =
      (sortOps (MemoryStark.fill_gaps l)).map MemoryOp.sorting_key :=
    keymap_eq_of_perm_of_sorted hperm (canonChain_sorted maxRc _ hchain) (sortOps_sorted _)
  rw [← hkeys]
  rw [List.chain'_map]
  exact hchain

theorem opLE_refl (a : MemoryOp) : opLE a a := by
  unfold opLE keyLE
  omega

theorem mem_of_getLast?_eq {α : Type} : ∀ {l : List α} {a : α}, l.getLast? = some a → a ∈ l := by
  intro l
  induction l with
  | nil => intro a h; simp at h
  | cons x t ih =>
    intro a h
    cases t with
    | nil =>
      simp only [List.getLast?_singleton, Option.some.injEq] at h
      simp [h]
    | cons y t' =>
      rw [List.getLast?_cons_cons] at h
      exact List.mem_cons_of_mem x (ih h)

/-- In a sorted list, every element is below the last one. -/
theorem sorted_le_getLast : ∀ {l : List MemoryOp}, List.Sorted opLE l →
    ∀ {x lastOp : MemoryOp}, x ∈ l → l.getLast? = some lastOp → opLE x lastOp := by
  intro l
  induction l with
  | nil => intro _ x lastOp hx _; simp at hx
  | cons a t ih =>
    intro hs x lastOp hx hlast
    cases t with
    | nil =>
      simp only [List.getLast?_singleton, Option.some.injEq] at hlast
      simp only [List.mem_singleton] at hx
      rw [hx, ← hlast]
      exact opLE_refl a
    | cons b t' =>
      rw [List.getLast?_cons_cons] at hlast
      rcases List.mem_cons.mp hx with rfl | hx'
      · have hmem : lastOp ∈ b :: t' := mem_of_getLast?_eq hlast
        exact (List.pairwise_cons.mp hs).1 lastOp hmem
      · exact ih (List.Sorted.of_cons hs) hx' hlast

theorem pairwise_replicate_of_rel {α : Type} {R : α → α → Prop} {a : α} (h : R a a) :
    ∀ n, List.Pairwise R (List.replicate n a) := by
  intro n
  induction n with
  | zero => simp
  | succ n ih =>
    rw [List.replicate_succ]
    refine List.pairwise_cons.mpr ⟨?_, ih⟩
    intro b hb
    rw [List.eq_of_mem_replicate hb]
    exact h

theorem chain'_replicate_of_rel {α : Type} {R : α → α → Prop} {a : α} (h : R a a) :
    ∀ n, List.Chain' R (List.replicate n a) := by
  intro n
  induction n with
  | zero => simp
  | succ n ih =>
    rw [List.replicate_succ]
    refine List.chain'_cons'.mpr ⟨?_, ih⟩
    intro b hb
    cases n with
    | zero => simp at hb
    | succ m =>
      rw [List.replicate_succ] at hb
      simp only [List.head?_cons, Option.mem_some_iff] at hb
      exact hb ▸ h

/-- The padding operation `pad_memory_ops` repeats: an inactive read one past
the last operation's offset, one past its timestamp, with value 0. -/
def padOpOf (lastOp : MemoryOp) : MemoryOp :=
  { filter := false, kind := .Read,
    address := { lastOp.address with virt := lastOp.address.virt + 1 },
    timestamp := lastOp.timestamp + 1, value := 0 }

theorem pad_memory_ops_eq (l : List MemoryOp) {lastOp : MemoryOp}
    (h : l.getLast? = some lastOp) :
    MemoryStark.pad_memory_ops l =
      l ++ List.replicate (nextPow2 (l.length + 1) - l.length) (padOpOf lastOp) := by
  unfold MemoryStark.pad_memory_ops
  rw [h]
  rfl

/-- A chain of good pairs is a property of the key list alone. -/
theorem chain_wgood_of_keymap {maxRc : Nat} {l1 l2 : List MemoryOp}
    (h : l1.map MemoryOp.sorting_key = l2.map MemoryOp.sorting_key)
    (hc : List.Chain' (wgood maxRc) l2) : List.Chain' (wgood maxRc) l1 := by
  have h2 : List.Chain' (kgood maxRc) (l2.map MemoryOp.sorting_key) := by
    rw [List.chain'_map]
    exact hc
  rw [← h, List.chain'_map] at h2
  exact h2

theorem pad_memory_ops_length (l : List MemoryOp) (hne : l ≠ []) :
    (MemoryStark.pad_memory_ops l).length = nextPow2 (l.length + 1) := by
  rw [pad_memory_ops_eq l (List.getLast?_eq_getLast l hne), List.length_append,
    List.length_replicate]
  have := le_nextPow2 (l.length + 1)
  omega

theorem wgood_last_pad (maxRc : Nat) (lastOp : MemoryOp) :
    wgood maxRc lastOp (padOpOf lastOp) := by
  apply kgood_same_cs_virt
  · show lastOp.address.context = (padOpOf lastOp).address.context
    rfl
  · show lastOp.address.segment = (padOpOf lastOp).address.segment
    rfl
  · show lastOp.address.virt < (padOpOf lastOp).address.virt
    show lastOp.address.virt < lastOp.address.virt + 1
    omega
  · show (padOpOf lastOp).address.virt - lastOp.address.virt - 1 ≤ maxRc
    show lastOp.address.virt + 1 - lastOp.address.virt - 1 ≤ maxRc
    omega

theorem wgood_pad_pad (maxRc : Nat) (p : MemoryOp) : wgood maxRc p p := by
  apply kgood_same_addr (rfl) (rfl) (rfl) (le_refl _)
  show p.timestamp - p.timestamp ≤ maxRc
  omega

/-- Padding preserves sortedness and good adjacent pairs. -/
theorem pad_stage_chain (l : List MemoryOp) (hne : l ≠ []) (maxRc : Nat)
    (hs : List.Sorted opLE l) (hc : List.Chain' (wgood maxRc) l) :
    List.Chain' (wgood maxRc) (MemoryStark.pad_memory_ops l) ∧
    List.Sorted opLE (MemoryStark.pad_memory_ops l) := by
  have hlast := List.getLast?_eq_getLast l hne
  rw [pad_memory_ops_eq l hlast]
  set p := padOpOf (l.getLast hne) with hp
  constructor
  · rw [List.chain'_append]
    refine ⟨hc, chain'_replicate_of_rel (wgood_pad_pad maxRc p) _, ?_⟩
    intro x hx y hy
    rw [hlast] at hx
    simp only [Option.mem_some_iff] at hx
    have hyp : y = p := by
      cases hk : nextPow2 (l.length + 1) - l.length with
      | zero => rw [hk] at hy; simp at hy
      | succ m =>
        rw [hk, List.replicate_succ] at hy
        simp only [List.head?_cons, Option.mem_some_iff] at hy
        exact hy.symm
    rw [← hx, hyp]
    exact wgood_last_pad maxRc _
  · show List.Pairwise opLE _
    rw [List.pairwise_append]
    refine ⟨hs, pairwise_replicate_of_rel (opLE_refl p) _, ?_⟩
    intro x hx y hy
    rw [List.eq_of_mem_replicate hy]
    exact keyLE_trans (sorted_le_getLast hs hx hlast) (wgood_opLE (wgood_last_pad maxRc _))

/-- The fully processed operation list has good adjacent pairs throughout, for
a `maxRc` strictly below the final (power-of-two) length. -/
theorem trace_stage_chain (ops : List MemoryOp) (hne : ops ≠ []) :
    List.Chain' (wgood (nextPow2 (withZeroOf (sortOps ops)).length - 1))
      (MemoryStark.traceOps ops) ∧
    nextPow2 (withZeroOf (sortOps ops)).length - 1 < (MemoryStark.traceOps ops).length := by
  set l := sortOps ops with hl
  have hlne : l ≠ [] := by
    intro h
    have := (sortOps_perm ops).length_eq
    rw [← hl, h] at this
    simp at this
    exact hne (List.length_eq_zero.mp this.symm)
  set maxRc := nextPow2 (withZeroOf l).length - 1 with hmr
  set s2 := sortOps (MemoryStark.fill_gaps l) with hs2
  have hs2chain : List.Chain' (wgood maxRc) s2 := by
    have := fill_stage_chain l hlne (sortOps_sorted ops)
    rw [List.chain'_map] at this
    exact this
  have hs2len : (withZeroOf l).length ≤ s2.length := by
    rw [hs2, (sortOps_perm _).length_eq]
    exact fill_gaps_length_ge l hlne
  have hs2ne : s2 ≠ [] := by
    intro h
    have h1 := withZeroOf_length_le l
    rw [h, List.length_nil] at hs2len
    have : l.length = 0 := by omega
    exact hlne (List.length_eq_zero.mp this)
  obtain ⟨hpc, hps⟩ := pad_stage_chain s2 hs2ne maxRc (sortOps_sorted _) hs2chain
  have htrace : MemoryStark.traceOps ops = sortOps (MemoryStark.pad_memory_ops s2) := rfl
  have hkeys : (sortOps (MemoryStark.pad_memory_ops s2)).map MemoryOp.sorting_key =
      (MemoryStark.pad_memory_ops s2).map MemoryOp.sorting_key :=
    keymap_eq_of_perm_of_sorted (sortOps_perm _) (sortOps_sorted _) hps
  constructor
  · rw [htrace]
    exact chain_wgood_of_keymap hkeys hpc
  · rw [htrace, (sortOps_perm _).length_eq, pad_memory_ops_length s2 hs2ne]
    have h1 : nextPow2 (withZeroOf l).length ≤ nextPow2 (s2.length + 1) :=
      nextPow2_mono (by omega)
    have h2 := nextPow2_pos (withZeroOf l).length
    omega

theorem glCast_inj {a b : Nat} (ha : a < glP) (hb : b < glP) :
    ((a : Gl) = (b : Gl)) ↔ a = b := by
  constructor
  · intro h
    have h2 := congrArg ZMod.val h
    rwa [ZMod.val_natCast, ZMod.val_natCast, Nat.mod_eq_of_lt ha, Nat.mod_eq_of_lt hb] at h2
  · intro h
    rw [h]

theorem glSub_eq {a b : Nat} (hab : a ≤ b) :
    (b : Gl) - (a : Gl) = ((b - a : Nat) : Gl) := by
  have h1 : ((b - a : Nat) : Gl) + (a : Gl) = (b : Gl) := by
    rw [← Nat.cast_add]
    congr 1
    omega
  rw [← h1]
  ring

theorem glSub_val {a b : Nat} (hab : a ≤ b) (hb : b < glP) :
    ((b : Gl) - (a : Gl)).val = b - a := by
  rw [glSub_eq hab, ZMod.val_natCast, Nat.mod_eq_of_lt (by omega)]

theorem glSub1_eq {a b : Nat} (hab : a < b) :
    (b : Gl) - (a : Gl) - 1 = ((b - a - 1 : Nat) : Gl) := by
  have h1 : ((b - a - 1 : Nat) : Gl) + ((a : Gl) + 1) = (b : Gl) := by
    rw [show ((1 : Gl) = ((1 : Nat) : Gl)) from rfl, ← Nat.cast_add, ← Nat.cast_add]
    congr 1
    omega
  rw [← h1]
  ring

theorem glSub1_val {a b : Nat} (hab : a < b) (hb : b < glP) :
    ((b : Gl) - (a : Gl) - 1).val = b - a - 1 := by
  rw [glSub1_eq hab, ZMod.val_natCast, Nat.mod_eq_of_lt (by omega)]

theorem flagStep_rc_last (numOps idx : Nat) (r n : MemColumns Gl) (h : idx = numOps - 1) :
    (flagStep numOps idx r n).range_check = 0 := by
  unfold flagStep
  dsimp only
  rw [if_pos h]

/-- For a non-final row built from ordered operations with sub-field
components, the computed `range_check` is exactly the key gap. -/
theorem flagStep_rc (numOps idx : Nat) (a b : MemoryOp)
    (hidx : ¬(idx = numOps - 1))
    (h1 : a.address.context < glP) (h2 : b.address.context < glP)
    (h3 : a.address.segment < glP) (h4 : b.address.segment < glP)
    (h5 : a.address.virt < glP) (h6 : b.address.virt < glP)
    (h7 : a.timestamp < glP) (h8 : b.timestamp < glP)
    (hle : opLE a b) :
    (flagStep numOps idx (MemoryOp.into_row a) (MemoryOp.into_row b)).range_check.val =
      gapRC a.sorting_key b.sorting_key := by
  have hcomp := opLE_components hle
  unfold flagStep MemoryOp.into_row gapRC MemoryOp.sorting_key
  dsimp only
  rw [if_neg hidx]
  by_cases hc : a.address.context = b.address.context
  · by_cases hs : a.address.segment = b.address.segment
    · by_cases hv : a.address.virt = b.address.virt
      · rw [if_neg (not_not.mpr (by rw [hc])),
          if_neg (fun hcon => hcon.1 (by rw [hs])),
          if_neg (fun hcon => hcon.1 (by rw [hv])),
          if_neg (not_not.mpr hc), if_neg (not_not.mpr hs), if_neg (not_not.mpr hv)]
        exact glSub_val (by omega) h8
      · rw [if_neg (not_not.mpr (by rw [hc])),
          if_neg (fun hcon => hcon.1 (by rw [hs])),
          if_pos ⟨fun h => hv ((glCast_inj h5 h6).mp h),
            fun hcon => hcon.1 (by rw [hs]), not_not.mpr (by rw [hc])⟩,
          if_neg (not_not.mpr hc), if_neg (not_not.mpr hs), if_pos hv]
        exact glSub1_val (by omega) h6
    · rw [if_neg (not_not.mpr (by rw [hc])),
        if_pos ⟨fun h => hs ((glCast_inj h3 h4).mp h), not_not.mpr (by rw [hc])⟩,
        if_neg (not_not.mpr hc), if_pos hs]
      exact glSub1_val (by omega) h4
  · rw [if_pos (fun h => hc ((glCast_inj h1 h2).mp h)), if_pos hc]
    exact glSub1_val (by omega) h2

/-- A good pair's gap is below `numOps` whenever `maxRc` and the second key's
context and segment are. -/
theorem gapRC_lt {maxRc numOps : Nat} {x y : SortKey} (hk : kgood maxRc x y)
    (hmax : maxRc < numOps) (hyc : y.1 < numOps) (hys : y.2.1 < numOps) :
    gapRC x y < numOps := by
  obtain ⟨hle, hg⟩ := hk
  unfold keyLE at hle
  unfold gapRC at hg ⊢
  split_ifs at hg ⊢ <;> omega

theorem getD_map_into {l : List MemoryOp} {i : Nat} (h : i < l.length) (d : MemColumns Gl) :
    ((l.map (MemoryOp.into_row (F := Gl))).getD i d) = MemoryOp.into_row (l.get ⟨i, h⟩) := by
  rw [List.getD_eq_getElem?_getD, List.getElem?_map, List.getElem?_eq_getElem h]
  rfl

theorem flags_isSome_of (rows : List (MemColumns Gl))
    (h : ∀ idx, idx < rows.length →
      (flagStep rows.length idx (rows.getD idx MemColumns.zeros)
        (if idx = rows.length - 1 then rows.getD 0 MemColumns.zeros
          else rows.getD (idx + 1) MemColumns.zeros)).range_check.val < rows.length) :
    (generate_first_change_flags_and_rc rows).isSome = true := by
  unfold generate_first_change_flags_and_rc
  dsimp only
  rw [if_pos]
  · rfl
  · rw [List.all_eq_true]
    intro r hr
    rw [List.mem_map] at hr
    obtain ⟨idx, hidx, rfl⟩ := hr
    rw [List.mem_range] at hidx
    exact decide_eq_true (h idx hidx)

/-- C1 (amended): after sorting, gap filling and padding, every `range_check`
computed by `generate_first_change_flags_and_rc` is strictly below the trace
length — PROVIDED every operation in the processed list has context and
segment index below the trace length (and all components below the field
order, so the field arithmetic is exact).  `fill_gaps` deliberately leaves
context- and segment-change gaps unfilled, so without that proviso the
assertion is reachable (`mem_c1_counterexample`): the `isSome` conclusion is
exactly the reachability of the source `assert!`, which this file models as
`none`. -/
theorem optionMap_isSome {α β : Type} (f : α → β) (o : Option α) :
    (Option.map f o).isSome = o.isSome := by
  cases o <;> rfl

theorem mem_c1_range_checks (ops : List MemoryOp) (hne : ops ≠ [])
    (hsmall : ∀ op ∈ MemoryStark.traceOps ops,
      op.address.context < (MemoryStark.traceOps ops).length ∧
      op.address.segment < (MemoryStark.traceOps ops).length)
    (hfield : ∀ op ∈ MemoryStark.traceOps ops,
      op.address.context < glP ∧ op.address.segment < glP ∧
      op.address.virt < glP ∧ op.timestamp < glP) :
    (MemoryStark.generate_trace_row_major ops).isSome = true := by
  obtain ⟨hchain, hmax⟩ := trace_stage_chain ops hne
  unfold MemoryStark.generate_trace_row_major
  dsimp only
  rw [optionMap_isSome]
  apply flags_isSome_of
  simp only [List.length_map]
  intro idx hidx
  by_cases hlast : idx = (MemoryStark.traceOps ops).length - 1
  · rw [flagStep_rc_last _ _ _ _ hlast, ZMod.val_zero]
    exact traceOps_length_pos ops hne
  · have hidx1 : idx + 1 < (MemoryStark.traceOps ops).length := by omega
    rw [if_neg hlast, getD_map_into hidx, getD_map_into hidx1]
    have hw := List.chain'_iff_get.mp hchain idx (by omega)
    have hamem := List.get_mem (MemoryStark.traceOps ops) idx hidx
    have hbmem := List.get_mem (MemoryStark.traceOps ops) (idx + 1) hidx1
    obtain ⟨ha1, ha2, ha3, ha4⟩ := hfield _ hamem
    obtain ⟨hb1, hb2, hb3, hb4⟩ := hfield _ hbmem
    rw [flagStep_rc _ _ _ _ hlast ha1 hb1 ha2 hb2 ha3 hb3 ha4 hb4 hw.1]
    exact gapRC_lt hw hmax (hsmall _ hbmem).1 (hsmall _ hbmem).2

/-- C1 counterexample: for the two-operation input whose contexts are 0 and
100, the context-change gap 99 reaches the (length-4) trace, the assertion in
`generate_first_change_flags_and_rc` fires, and row-major trace generation
aborts: the claim that the assertion is unreachable for every non-empty input
is false. -/
theorem mem_c1_counterexample :
    (MemoryStark.generate_trace_row_major contextGapOps).isSome = false := by decide

theorem mem_c1_range_checks_witness :
    writeReadOpsConsistent ≠ [] ∧
    (MemoryStark.generate_trace_row_major writeReadOpsConsistent).isSome = true :=
  ⟨by decide, mem_c1_range_checks writeReadOpsConsistent (by decide) (by decide) (by decide)⟩

/-- The read-after-write law for one adjacent pair: a read at an unchanged
address carries the previous value. -/
def vgood (a b : MemoryOp) : Prop :=
  (a.address = b.address ∧ b.kind = MemoryOpKind.Read) → b.value = a.value

instance (a b : MemoryOp) : Decidable (vgood a b) :=
  inferInstanceAs (Decidable ((a.address = b.address ∧ b.kind = MemoryOpKind.Read) →
    b.value = a.value))

/-- Strictly increasing sort keys together with the read-after-write law. -/
def svgood (a b : MemoryOp) : Prop := opLT a b ∧ vgood a b

instance (a b : MemoryOp) : Decidable (svgood a b) :=
  inferInstanceAs (Decidable (opLT a b ∧ vgood a b))

theorem vgood_of_ctx_ne {a b : MemoryOp} (h : a.address.context ≠ b.address.context) :
    vgood a b := fun hc => absurd (congrArg MemoryAddress.context hc.1) h

theorem vgood_of_seg_ne {a b : MemoryOp} (h : a.address.segment ≠ b.address.segment) :
    vgood a b := fun hc => absurd (congrArg MemoryAddress.segment hc.1) h

theorem vgood_of_virt_ne {a b : MemoryOp} (h : a.address.virt ≠ b.address.virt) :
    vgood a b := fun hc => absurd (congrArg MemoryAddress.virt hc.1) h

theorem keyLT_same_cs_virt {x y : SortKey} (hc : x.1 = y.1) (hs : x.2.1 = y.2.1)
    (hv : x.2.2.1 < y.2.2.1) : keyLT x y := by
  unfold keyLT
  omega

theorem keyLT_same_addr {x y : SortKey} (hc : x.1 = y.1) (hs : x.2.1 = y.2.1)
    (hv : x.2.2.1 = y.2.2.1) (ht : x.2.2.2 < y.2.2.2) : keyLT x y := by
  unfold keyLT
  omega

theorem keyLT_cs {x y : SortKey} (h : x.1 < y.1 ∨ (x.1 = y.1 ∧ x.2.1 < y.2.1)) : keyLT x y := by
  unfold keyLT
  omega

namespace MemoryStark

/-- The strict/value analogue of `ctxSegFillGo_chain`: within a
context/segment-change window, keys strictly ascend and (the addresses all
differing in offset) the read-after-write law holds vacuously. -/
theorem ctxSegFillGo_svchain (maxRc currTs : Nat) (hm : 0 < maxRc) :
    ∀ (fuel : Nat) (next : MemoryOp), next.address.virt ≤ fuel →
    List.Chain' svgood ((ctxSegFillGo maxRc currTs fuel next).reverse ++ [next]) := by
  intro fuel
  induction fuel with
  | zero =>
    intro next hfuel
    simp only [ctxSegFillGo, List.reverse_nil, List.nil_append]
    exact List.chain'_singleton next
  | succ fuel ih =>
    intro next hfuel
    by_cases hguard : maxRc < next.address.virt
    · set d := MemoryOp.new_dummy_read { next.address with virt := next.address.virt - maxRc }
        (currTs + 1) 0 with hdd
      have hstep : ctxSegFillGo maxRc currTs (fuel + 1) next =
          d :: ctxSegFillGo maxRc currTs fuel d := by
        conv_lhs => rw [ctxSegFillGo]
        rw [if_pos hguard]
      have hdv : d.address.virt = next.address.virt - maxRc := rfl
      have hdc : d.address.context = next.address.context := rfl
      have hds : d.address.segment = next.address.segment := rfl
      have hdfuel : d.address.virt ≤ fuel := by omega
      have htail := ih d hdfuel
      have hlink : svgood d next := by
        constructor
        · apply keyLT_same_cs_virt
          · show d.address.context = next.address.context
            exact hdc
          · show d.address.segment = next.address.segment
            exact hds
          · show d.address.virt < next.address.virt
            omega
        · exact vgood_of_virt_ne (by omega)
      rw [hstep, List.reverse_cons, List.append_assoc]
      exact chain_glue htail (List.chain'_pair.mpr hlink)
    · have hz : ctxSegFillGo maxRc currTs (fuel + 1) next = [] := by
        conv_lhs => rw [ctxSegFillGo]
        rw [if_neg hguard]
      rw [hz]
      exact List.chain'_singleton next

theorem virtFillGo_svchain : ∀ (maxRc fuel : Nat) (curr next : MemoryOp),
    next.address.virt - curr.address.virt ≤ fuel →
    curr.address.context = next.address.context →
    curr.address.segment = next.address.segment →
    curr.address.virt < next.address.virt →
    List.Chain' svgood (curr :: virtFillGo maxRc fuel curr next ++ [next]) := by
  intro maxRc fuel
  induction fuel with
  | zero =>
    intro curr next hfuel _ _ hv
    omega
  | succ fuel ih =>
    intro curr next hfuel hc hs hv
    by_cases hguard : maxRc < next.address.virt - curr.address.virt - 1
    · set d := MemoryOp.new_dummy_read { curr.address with virt := curr.address.virt + maxRc + 1 }
        (curr.timestamp + 1) 0 with hdd
      have hstep : virtFillGo maxRc (fuel + 1) curr next = d :: virtFillGo maxRc fuel d next := by
        conv_lhs => rw [virtFillGo]
        rw [if_pos hguard]
      rw [hstep]
      have hdv : d.address.virt = curr.address.virt + maxRc + 1 := rfl
      have hdc : d.address.context = curr.address.context := rfl
      have hds : d.address.segment = curr.address.segment := rfl
      have htail : List.Chain' svgood (d :: virtFillGo maxRc fuel d next ++ [next]) :=
        ih d next (by omega) (by omega) (by omega) (by omega)
      have hlink : svgood curr d := by
        constructor
        · apply keyLT_same_cs_virt
          · show curr.address.context = d.address.context
            omega
          · show curr.address.segment = d.address.segment
            omega
          · show curr.address.virt < d.address.virt
            omega
        · exact vgood_of_virt_ne (by omega)
      rw [List.cons_append]
      exact List.chain'_cons.mpr ⟨hlink, by simpa using htail⟩
    · have hstep : virtFillGo maxRc (fuel + 1) curr next = [] := by
        conv_lhs => rw [virtFillGo]
        rw [if_neg hguard]
      rw [hstep]
      refine List.chain'_pair.mpr ⟨?_, vgood_of_virt_ne (by omega)⟩
      apply keyLT_same_cs_virt
      · show curr.address.context = next.address.context
        exact hc
      · show curr.address.segment = next.address.segment
        exact hs
      · show curr.address.virt < next.address.virt
        exact hv

theorem tsFillGo_svchain (maxRc : Nat) (hm : 0 < maxRc) : ∀ (fuel : Nat) (curr next : MemoryOp),
    next.timestamp - curr.timestamp ≤ fuel →
    curr.address = next.address →
    curr.timestamp < next.timestamp →
    (next.kind = MemoryOpKind.Read → next.value = curr.value) →
    List.Chain' svgood (curr :: tsFillGo maxRc fuel curr next.timestamp ++ [next]) := by
  intro fuel
  induction fuel with
  | zero =>
    intro curr next hfuel _ hlt _
    omega
  | succ fuel ih =>
    intro curr next hfuel ha hlt hval
    by_cases hguard : maxRc < next.timestamp - curr.timestamp
    · set d := MemoryOp.new_dummy_read curr.address (curr.timestamp + maxRc) curr.value with hdd
      have hstep : tsFillGo maxRc (fuel + 1) curr next.timestamp =
          d :: tsFillGo maxRc fuel d next.timestamp := by
        conv_lhs => rw [tsFillGo]
        rw [if_pos hguard]
      rw [hstep]
      have hdts : d.timestamp = curr.timestamp + maxRc := rfl
      have hda : d.address = curr.address := rfl
      have hdval : d.value = curr.value := rfl
      have hdkind : d.kind = MemoryOpKind.Read := rfl
      have htail : List.Chain' svgood (d :: tsFillGo maxRc fuel d next.timestamp ++ [next]) := by
        apply ih d next (by omega) (by rw [hda]; exact ha) (by omega)
        intro hr
        rw [hval hr, hdval]
      have hlink : svgood curr d := by
        constructor
        · apply keyLT_same_addr
          · show curr.address.context = d.address.context
            rw [hda]
          · show curr.address.segment = d.address.segment
            rw [hda]
          · show curr.address.virt = d.address.virt
            rw [hda]
          · show curr.timestamp < d.timestamp
            omega
        · intro _
          exact hdval
      rw [List.cons_append]
      exact List.chain'_cons.mpr ⟨hlink, by simpa using htail⟩
    · have hstep : tsFillGo maxRc (fuel + 1) curr next.timestamp = [] := by
        conv_lhs => rw [tsFillGo]
        rw [if_neg hguard]
      rw [hstep]
      refine List.chain'_pair.mpr ⟨?_, fun hc => hval hc.2⟩
      apply keyLT_same_addr
      · show curr.address.context = next.address.context
        rw [ha]
      · show curr.address.segment = next.address.segment
        rw [ha]
      · show curr.address.virt = next.address.virt
        rw [ha]
      · show curr.timestamp < next.timestamp
        exact hlt

end MemoryStark

theorem opLT_components {a b : MemoryOp} (h : opLT a b) :
    a.address.context < b.address.context ∨ (a.address.context = b.address.context ∧
      (a.address.segment < b.address.segment ∨ (a.address.segment = b.address.segment ∧
        (a.address.virt < b.address.virt ∨ (a.address.virt = b.address.virt ∧
          a.timestamp < b.timestamp))))) := h

theorem addr_ext {a b : MemoryAddress} (hc : a.context = b.context)
    (hs : a.segment = b.segment) (hv : a.virt = b.virt) : a = b := by
  cases a
  cases b
  simp only [MemoryAddress.mk.injEq]
  exact ⟨hc, hs, hv⟩

namespace MemoryStark

/-- The strict/value analogue of `chainOf_chain`. -/
theorem chainOf_svchain (maxRc : Nat) (hm : 0 < maxRc) (curr next : MemoryOp)
    (hlt : opLT curr next) (hval : vgood curr next) :
    List.Chain' svgood (curr :: chainOf maxRc curr next ++ [next]) := by
  have hcomp := opLT_components hlt
  unfold chainOf
  split
  · next hcs =>
    obtain ⟨bot, hb1, hb2, hb3, hb4, _⟩ :=
      ctxSegFillGo_chain maxRc curr.timestamp hm next.address.virt next (le_refl _)
    have hchain := ctxSegFillGo_svchain maxRc curr.timestamp hm next.address.virt next (le_refl _)
    rw [List.cons_append]
    refine List.chain'_cons'.mpr ⟨?_, hchain⟩
    · intro y hy
      have hyb : y = bot := by
        rw [show ctxSegFill maxRc curr.timestamp next =
          ctxSegFillGo maxRc curr.timestamp next.address.virt next from rfl] at hy
        rw [hb1] at hy
        exact (Option.mem_some_iff.mp hy).symm
      subst hyb
      constructor
      · apply keyLT_cs
        show curr.address.context < y.address.context ∨
          (curr.address.context = y.address.context ∧
            curr.address.segment < y.address.segment)
        rw [hb3, hb4]
        omega
      · rcases hcs with h | h
        · exact vgood_of_ctx_ne (by rw [hb3]; exact h)
        · exact vgood_of_seg_ne (by rw [hb4]; exact h)
  · next hcs =>
    split
    · next hv =>
      push_neg at hcs
      exact virtFillGo_svchain maxRc (next.address.virt - curr.address.virt) curr next
        (le_refl _) hcs.1 hcs.2 (by omega)
    · next hv =>
      push_neg at hcs hv
      have ha : curr.address = next.address := addr_ext hcs.1 hcs.2 hv
      have hts : curr.timestamp < next.timestamp := by omega
      exact tsFillGo_svchain maxRc hm (next.timestamp - curr.timestamp) curr next
        (le_refl _) ha hts (fun hr => hval ⟨ha, hr⟩)

/-- The strict/value analogue of `canonChain_chain`. -/
theorem canonChain_svchain (maxRc : Nat) (hm : 0 < maxRc) : ∀ (l : List MemoryOp),
    List.Chain' svgood l → List.Chain' svgood (canonChain maxRc l) := by
  intro l
  induction l with
  | nil => intro _; simp [canonChain]
  | cons a l ih =>
    cases l with
    | nil => intro _; simp [canonChain]
    | cons b rest =>
      intro hs
      rw [List.chain'_cons] at hs
      obtain ⟨t, ht⟩ := canonChain_exists_tail maxRc b rest
      rw [canonChain_cons_cons, ht]
      have h2 : List.Chain' svgood (b :: t) := ht ▸ ih hs.2
      have h1 := chainOf_svchain maxRc hm a b hs.1.1 hs.1.2
      rw [show a :: chainOf maxRc a b ++ b :: t = (a :: chainOf maxRc a b) ++ b :: t from rfl]
      exact chain_glue (by simpa using h1) h2

/-- The strict/value chain for `canonChain` with the positivity side condition
discharged from the snapshot length. -/
theorem canonChain_svchain_auto (l : List MemoryOp) (hs : List.Chain' svgood l) :
    List.Chain' svgood (canonChain (nextPow2 l.length - 1) l) := by
  match l with
  | [] => simp [canonChain]
  | [a] => simp [canonChain]
  | a :: b :: rest =>
    apply canonChain_svchain _ _ _ hs
    have h2 : 2 ≤ (a :: b :: rest).length := by simp
    have := le_nextPow2 (a :: b :: rest).length
    omega

end MemoryStark

theorem keyLT_irrefl (a : SortKey) : ¬ keyLT a a := by
  unfold keyLT
  omega

/-- The weak order whose ties are literal equality: antisymmetric, so sorted
permutations are unique. -/
def opLEq (a b : MemoryOp) : Prop := opLT a b ∨ a = b

instance : IsAntisymm MemoryOp opLEq where
  antisymm a b h1 h2 := by
    rcases h1 with h1 | h1
    · rcases h2 with h2 | h2
      · exact absurd (keyLT_trans h1 h2) (keyLT_irrefl _)
      · exact h2.symm
    · exact h1

/-- No two distinct elements share a sort key. -/
def tiesOK (l : List MemoryOp) : Prop :=
  List.Pairwise (fun a b => a.sorting_key = b.sorting_key → a = b) l

theorem tiesOK_of_perm {l1 l2 : List MemoryOp} (hp : l1.Perm l2) (h : tiesOK l1) : tiesOK l2 := by
  unfold tiesOK at *
  exact (List.Perm.pairwise_iff (fun hab h2 => (hab h2.symm).symm) hp).mp h

theorem tiesOK_of_pairwise_opLEq {l : List MemoryOp} (h : List.Pairwise opLEq l) : tiesOK l := by
  refine h.imp ?_
  intro a b hab heq
  rcases hab with hab | hab
  · unfold opLT at hab
    rw [heq] at hab
    exact absurd hab (keyLT_irrefl _)
  · exact hab

theorem pairwise_opLEq_of_sorted_tiesOK {l : List MemoryOp} (hs : List.Sorted opLE l)
    (ht : tiesOK l) : List.Pairwise opLEq l := by
  unfold tiesOK at ht
  refine (hs.and ht).imp ?_
  intro a b hab
  by_cases heq : a.sorting_key = b.sorting_key
  · exact Or.inr (hab.2 heq)
  · exact Or.inl (keyLT_iff_le_ne.mpr ⟨hab.1, heq⟩)

/-- A sorted permutation of a list with strictly increasing keys (up to
identical ties) is that list. -/
theorem eq_sortOps_of_pairwise {m l : List MemoryOp} (hp : (sortOps m).Perm l)
    (hl : List.Pairwise opLEq l) : sortOps m = l := by
  have h1 : List.Pairwise opLEq (sortOps m) :=
    pairwise_opLEq_of_sorted_tiesOK (sortOps_sorted m)
      (tiesOK_of_perm hp.symm (tiesOK_of_pairwise_opLEq hl))
  exact List.eq_of_perm_of_sorted (r := opLEq) hp h1 hl

theorem chain'_and {α : Type} {R S : α → α → Prop} : ∀ {l : List α},
    List.Chain' R l → List.Chain' S l → List.Chain' (fun a b => R a b ∧ S a b) l := by
  intro l
  induction l with
  | nil => intro _ _; simp
  | cons a t ih =>
    cases t with
    | nil => intro _ _; simp
    | cons b t' =>
      intro h1 h2
      rw [List.chain'_cons] at h1 h2 ⊢
      exact ⟨⟨h1.1, h2.1⟩, ih h1.2 h2.2⟩

/-- With key-distinct sorted input, the snapshot keeps strictness and the
read law (the bootstrap dummy differs in address from everything with a
nonzero offset). -/
theorem withZeroOf_svchain (l : List MemoryOp) (hd : List.Pairwise opLT l)
    (hv : List.Chain' vgood l) : List.Chain' svgood (withZeroOf l) := by
  have hl : List.Chain' svgood l := chain'_and hd.chain' hv
  cases l with
  | nil => simp [withZeroOf]
  | cons a t =>
    simp only [withZeroOf]
    split
    · next hvirt =>
      refine List.chain'_cons.mpr ⟨?_, hl⟩
      constructor
      · show keyLT (0, 0, 0, 1) a.sorting_key
        have : (0 : Nat) < a.address.context ∨ ((0 : Nat) = a.address.context ∧
            ((0 : Nat) < a.address.segment ∨ ((0 : Nat) = a.address.segment ∧
              (0 : Nat) < a.address.virt))) := by omega
        unfold keyLT MemoryOp.sorting_key
        dsimp only
        omega
      · refine vgood_of_virt_ne ?_
        show (0 : Nat) ≠ a.address.virt
        omega
    · exact hl

namespace MemoryStark

/-- With key-distinct, read-consistent sorted input, the gap-filled re-sorted
list IS the canonical interleaving (sorted permutations with at most identical
ties are unique), so it inherits strictness and the read law. -/
theorem fill_stage_eq (l : List MemoryOp) (hne : l ≠ [])
    (hd : List.Pairwise opLT l) (hv : List.Chain' vgood l) :
    sortOps (fill_gaps l) = canonChain (nextPow2 (withZeroOf l).length - 1) (withZeroOf l) ∧
    List.Pairwise opLT (sortOps (fill_gaps l)) ∧
    List.Chain' vgood (sortOps (fill_gaps l)) := by
  set maxRc := nextPow2 (withZeroOf l).length - 1 with hmr
  have hsv : List.Chain' svgood (canonChain maxRc (withZeroOf l)) := by
    rw [hmr]
    exact canonChain_svchain_auto (withZeroOf l) (withZeroOf_svchain l hd hv)
  have hstrict : List.Pairwise opLT (canonChain maxRc (withZeroOf l)) := by
    rw [← List.chain'_iff_pairwise]
    exact hsv.imp fun a b hab => hab.1
  have hperm : (sortOps (fill_gaps l)).Perm (canonChain maxRc (withZeroOf l)) := by
    refine (sortOps_perm _).trans ?_
    rw [fill_gaps_eq l hne]
    exact (canonChain_perm maxRc (withZeroOf l)).symm
  have heq : sortOps (fill_gaps l) = canonChain maxRc (withZeroOf l) :=
    eq_sortOps_of_pairwise hperm (hstrict.imp fun hab => Or.inl hab)
  refine ⟨heq, ?_, ?_⟩
  · rw [heq]
    exact hstrict
  · rw [heq]
    exact hsv.imp fun a b hab => hab.2

/-- Padding keeps the read law and keeps ties identical. -/
theorem pad_stage_eq (l : List MemoryOp) (hne : l ≠ [])
    (hd : List.Pairwise opLT l) (hv : List.Chain' vgood l) :
    List.Chain' vgood (pad_memory_ops l) ∧ List.Pairwise opLEq (pad_memory_ops l) := by
  have hlast := List.getLast?_eq_getLast l hne
  have hsorted : List.Sorted opLE l := hd.imp fun hab => keyLE_of_lt hab
  rw [pad_memory_ops_eq l hlast]
  set p := padOpOf (l.getLast hne) with hp
  have hltp : ∀ x ∈ l, opLT x p := by
    intro x hx
    have hxle : opLE x (l.getLast hne) := sorted_le_getLast hsorted hx hlast
    refine keyLT_of_le_of_lt hxle ?_
    apply keyLT_same_cs_virt
    · show (l.getLast hne).address.context = p.address.context
      rfl
    · show (l.getLast hne).address.segment = p.address.segment
      rfl
    · show (l.getLast hne).address.virt < p.address.virt
      show (l.getLast hne).address.virt < (l.getLast hne).address.virt + 1
      omega
  constructor
  · rw [List.chain'_append]
    refine ⟨hv, chain'_replicate_of_rel (show vgood p p from fun _ => rfl) _, ?_⟩
    intro x hx y hy
    rw [hlast] at hx
    simp only [Option.mem_some_iff] at hx
    have hyp : y = p := by
      cases hk : nextPow2 (l.length + 1) - l.length with
      | zero => rw [hk] at hy; simp at hy
      | succ m =>
        rw [hk, List.replicate_succ] at hy
        simp only [List.head?_cons, Option.mem_some_iff] at hy
        exact hy.symm
    rw [hyp]
    apply vgood_of_virt_ne
    rw [← hx]
    show (l.getLast hne).address.virt ≠ (l.getLast hne).address.virt + 1
    omega
  · rw [List.pairwise_append]
    refine ⟨hd.imp fun hab => Or.inl hab, pairwise_replicate_of_rel (show opLEq p p from Or.inr rfl) _, ?_⟩
    intro x hx y hy
    rw [List.eq_of_mem_replicate hy]
    exact Or.inl (hltp x hx)

/-- With key-distinct, read-consistent input, every adjacent pair of the final
operation list obeys the read-after-write law. -/
theorem trace_stage_vchain (ops : List MemoryOp) (hne : ops ≠ [])
    (hd : List.Pairwise opLT (sortOps ops)) (hv : List.Chain' vgood (sortOps ops)) :
    List.Chain' vgood (traceOps ops) := by
  set l := sortOps ops with hl
  have hlne : l ≠ [] := by
    intro h
    have := (sortOps_perm ops).length_eq
    rw [← hl, h] at this
    simp at this
    exact hne (List.length_eq_zero.mp this.symm)
  obtain ⟨heq, hs2d, hs2v⟩ := fill_stage_eq l hlne hd hv
  set s2 := sortOps (fill_gaps l) with hs2
  have hs2ne : s2 ≠ [] := by
    intro h
    have h1 := withZeroOf_length_le l
    have h2 := fill_gaps_length_ge l hlne
    have h3 := (sortOps_perm (fill_gaps l)).length_eq
    rw [← hs2, h] at h3
    simp at h3
    have : l.length = 0 := by omega
    exact hlne (List.length_eq_zero.mp this)
  obtain ⟨hpv, hpeq⟩ := pad_stage_eq s2 hs2ne hs2d hs2v
  have htr : traceOps ops = sortOps (pad_memory_ops s2) := rfl
  rw [htr, eq_sortOps_of_pairwise (sortOps_perm _) hpeq]
  exact hpv

end MemoryStark

/-- The rows of the final (flagged) row-major trace; `[]` when generation
aborts. -/
def traceRowsOf (ops : List MemoryOp) : List (MemColumns Gl) :=
  ((MemoryStark.generate_trace_row_major ops).getD ([], 0)).1

/-- `generate_first_change_flags_and_rc` only writes the flag, range-check and
preinitialization columns: address, read flag and value limbs pass through. -/
theorem flagStep_preserves (numOps idx : Nat) (r n : MemColumns Gl) :
    (flagStep numOps idx r n).addr_context = r.addr_context ∧
    (flagStep numOps idx r n).addr_segment = r.addr_segment ∧
    (flagStep numOps idx r n).addr_virtual = r.addr_virtual ∧
    (flagStep numOps idx r n).is_read = r.is_read ∧
    (flagStep numOps idx r n).value_limbs = r.value_limbs :=
  ⟨rfl, rfl, rfl, rfl, rfl⟩

theorem into_row_fields (op : MemoryOp) :
    (MemoryOp.into_row (F := Gl) op).addr_context = (op.address.context : Gl) ∧
    (MemoryOp.into_row (F := Gl) op).addr_segment = (op.address.segment : Gl) ∧
    (MemoryOp.into_row (F := Gl) op).addr_virtual = (op.address.virt : Gl) ∧
    (MemoryOp.into_row (F := Gl) op).value_limbs =
      (fun j : Fin 8 => (((op.value >>> (j.val * 32)) % 2 ^ 32 : Nat) : Gl)) :=
  ⟨rfl, rfl, rfl, rfl⟩

theorem into_row_is_read_one {op : MemoryOp}
    (h : (MemoryOp.into_row (F := Gl) op).is_read = 1) : op.kind = MemoryOpKind.Read := by
  by_cases hk : op.kind = MemoryOpKind.Read
  · exact hk
  · exfalso
    have h0 : (MemoryOp.into_row (F := Gl) op).is_read = 0 := by
      unfold MemoryOp.into_row
      dsimp only
      rw [if_neg hk]
    rw [h0] at h
    exact absurd h (by decide)

/-- C4 (amended): in the row-major trace of a non-empty operation list whose
sorted input has pairwise-distinct sort keys, obeys the read-after-write law
between adjacent sorted operations, and whose processed components fit the
field, every adjacent row pair with an unchanged address whose second row is a
read has equal value limbs.  Without the read-consistency hypothesis on the
input log the property is false (`mem_c4_counterexample`): `fill_gaps` carries
values forward only across the dummy reads it inserts, and trace generation
never inspects whether the input log's own reads match the preceding write. -/
theorem mem_c4_read_consistency (ops : List MemoryOp) (hne : ops ≠ [])
    (hd : List.Pairwise opLT (sortOps ops))
    (hv : List.Chain' vgood (sortOps ops))
    (hfield : ∀ op ∈ MemoryStark.traceOps ops,
      op.address.context < glP ∧ op.address.segment < glP ∧
      op.address.virt < glP ∧ op.timestamp < glP)
    (i : Nat) (hi : i + 1 < (traceRowsOf ops).length)
    (hctx : ((traceRowsOf ops).getD i MemColumns.zeros).addr_context =
      ((traceRowsOf ops).getD (i + 1) MemColumns.zeros).addr_context)
    (hseg : ((traceRowsOf ops).getD i MemColumns.zeros).addr_segment =
      ((traceRowsOf ops).getD (i + 1) MemColumns.zeros).addr_segment)
    (hvirt : ((traceRowsOf ops).getD i MemColumns.zeros).addr_virtual =
      ((traceRowsOf ops).getD (i + 1) MemColumns.zeros).addr_virtual)
    (hread : ((traceRowsOf ops).getD (i + 1) MemColumns.zeros).is_read = 1) :
    ∀ j : Fin 8, ((traceRowsOf ops).getD (i + 1) MemColumns.zeros).value_limbs j =
      ((traceRowsOf ops).getD i MemColumns.zeros).value_limbs j := by
  intro j
  cases hgen : MemoryStark.generate_trace_row_major ops with
  | none =>
    exfalso
    unfold traceRowsOf at hi
    rw [hgen] at hi
    simp at hi
  | some pr =>
    have hflags : generate_first_change_flags_and_rc
        ((MemoryStark.traceOps ops).map MemoryOp.into_row) = some pr.1 := by
      unfold MemoryStark.generate_trace_row_major at hgen
      dsimp only at hgen
      cases hfl : generate_first_change_flags_and_rc
          ((MemoryStark.traceOps ops).map MemoryOp.into_row) with
      | none =>
        rw [hfl] at hgen
        exact absurd hgen (by simp)
      | some out =>
        rw [hfl] at hgen
        simp only [Option.map_some', Option.some.injEq] at hgen
        rw [← hgen]
    have hN : ((MemoryStark.traceOps ops).map (MemoryOp.into_row (F := Gl))).length =
        (MemoryStark.traceOps ops).length := List.length_map _ _
    have hrows := flags_some_eq _ _ hflags
    have hlenr : pr.1.length = (MemoryStark.traceOps ops).length := by
      rw [hrows, List.length_map, List.length_range, hN]
    unfold traceRowsOf at hi hctx hseg hvirt hread ⊢
    rw [hgen] at hi hctx hseg hvirt hread ⊢
    simp only [Option.getD_some] at hi hctx hseg hvirt hread ⊢
    have hiN : i + 1 < (MemoryStark.traceOps ops).length := by
      rw [← hlenr]
      exact hi
    have hia : i < (MemoryStark.traceOps ops).length := by omega
    have hgetD : ∀ k, k < (MemoryStark.traceOps ops).length →
        pr.1.getD k MemColumns.zeros =
        flagStep ((MemoryStark.traceOps ops).map (MemoryOp.into_row (F := Gl))).length k
          (((MemoryStark.traceOps ops).map (MemoryOp.into_row (F := Gl))).getD k
            MemColumns.zeros)
          (if k = ((MemoryStark.traceOps ops).map (MemoryOp.into_row (F := Gl))).length - 1 then
            ((MemoryStark.traceOps ops).map (MemoryOp.into_row (F := Gl))).getD 0
              MemColumns.zeros
          else ((MemoryStark.traceOps ops).map (MemoryOp.into_row (F := Gl))).getD (k + 1)
            MemColumns.zeros) := by
      intro k hk
      rw [hrows]
      apply rangeMap_getD
      rw [hN]
      exact hk
    have hga := getD_map_into hia MemColumns.zeros
    have hgb := getD_map_into hiN MemColumns.zeros
    set a := (MemoryStark.traceOps ops).get ⟨i, hia⟩ with haa
    set b := (MemoryStark.traceOps ops).get ⟨i + 1, hiN⟩ with hbb
    obtain ⟨ha1, ha2, ha3, ha4⟩ := hfield a (List.get_mem _ _ _)
    obtain ⟨hb1, hb2, hb3, hb4⟩ := hfield b (List.get_mem _ _ _)
    simp only [hgetD i hia, hgetD (i + 1) hiN, hga, hgb] at hctx hseg hvirt hread ⊢
    rw [(flagStep_preserves _ _ _ _).1, (flagStep_preserves _ _ _ _).1,
      (into_row_fields a).1, (into_row_fields b).1] at hctx
    rw [(flagStep_preserves _ _ _ _).2.1, (flagStep_preserves _ _ _ _).2.1,
      (into_row_fields a).2.1, (into_row_fields b).2.1] at hseg
    rw [(flagStep_preserves _ _ _ _).2.2.1, (flagStep_preserves _ _ _ _).2.2.1,
      (into_row_fields a).2.2.1, (into_row_fields b).2.2.1] at hvirt
    rw [(flagStep_preserves _ _ _ _).2.2.2.1] at hread
    rw [(flagStep_preserves _ _ _ _).2.2.2.2, (flagStep_preserves _ _ _ _).2.2.2.2,
      (into_row_fields a).2.2.2, (into_row_fields b).2.2.2]
    have haddr : a.address = b.address :=
      addr_ext ((glCast_inj ha1 hb1).mp hctx) ((glCast_inj ha2 hb2).mp hseg)
        ((glCast_inj ha3 hb3).mp hvirt)
    have hkind : b.kind = MemoryOpKind.Read := into_row_is_read_one hread
    have hvchain := MemoryStark.trace_stage_vchain ops hne hd hv
    have hvg : vgood a b := List.chain'_iff_get.mp hvchain i (by omega)
    have hval : b.value = a.value := hvg ⟨haddr, hkind⟩
    dsimp only
    rw [hval]

/-- A structural boolean evaluator for adjacent-pair chains, used to decide
`List.Chain'` by kernel reduction on concrete lists. -/
def chain'B {α : Type} (p : α → α → Bool) : List α → Bool
  | [] => true
  | [_] => true
  | a :: b :: l => p a b && chain'B p (b :: l)

theorem chain'B_iff {α : Type} {R : α → α → Prop} [DecidableRel R] : ∀ l : List α,
    chain'B (fun a b => decide (R a b)) l = true ↔ List.Chain' R l := by
  intro l
  induction l with
  | nil => simp [chain'B]
  | cons a t ih =>
    cases t with
    | nil => simp [chain'B]
    | cons b t' =>
      rw [List.chain'_cons, ← ih, chain'B, Bool.and_eq_true, decide_eq_true_iff]

instance decChainAlt {α : Type} {R : α → α → Prop} [DecidableRel R] (l : List α) :
    Decidable (List.Chain' R l) :=
  decidable_of_iff _ (chain'B_iff l)

/-- C4 counterexample: on the input with a write of 5 followed by a read of 7
at the same address, row-major trace generation succeeds and produces adjacent
rows with an unchanged address whose second row is a read with a DIFFERENT
value limb: the adjacent-row read law does not hold for every non-empty input,
because trace generation never checks the input log's reads against the
preceding writes. -/
theorem mem_c4_counterexample :
    1 < (traceRowsOf writeReadOps).length ∧
    ((traceRowsOf writeReadOps).getD 0 MemColumns.zeros).addr_context =
      ((traceRowsOf writeReadOps).getD 1 MemColumns.zeros).addr_context ∧
    ((traceRowsOf writeReadOps).getD 0 MemColumns.zeros).addr_segment =
      ((traceRowsOf writeReadOps).getD 1 MemColumns.zeros).addr_segment ∧
    ((traceRowsOf writeReadOps).getD 0 MemColumns.zeros).addr_virtual =
      ((traceRowsOf writeReadOps).getD 1 MemColumns.zeros).addr_virtual ∧
    ((traceRowsOf writeReadOps).getD 1 MemColumns.zeros).is_read = 1 ∧
    ((traceRowsOf writeReadOps).getD 1 MemColumns.zeros).value_limbs 0 ≠
      ((traceRowsOf writeReadOps).getD 0 MemColumns.zeros).value_limbs 0 := by
  decide

theorem mem_c4_read_consistency_witness :
    ((traceRowsOf writeReadOpsConsistent).getD 1 MemColumns.zeros).value_limbs 0 =
      ((traceRowsOf writeReadOpsConsistent).getD 0 MemColumns.zeros).value_limbs 0 :=
  mem_c4_read_consistency writeReadOpsConsistent (by decide) (by decide) (by decide)
    (by decide) 0 (by decide) (by decide) (by decide) (by decide) (by decide) 0
